import Mathlib

/-!
Verification of `src/python/twitter/pants/commands/setup_py.py` (class `SetupPy`).

The development shallowly embeds the three core subsystems of the file:
  * the namespace-declaration detector `declares_namespace_package`,
  * the package/resource classifier `find_packages` with `nearest_subpackage`,
  * the dependency minimizer `minified_dependencies` with its inner `resolve`.

Python strings are modelled by Lean `String`; the Python string primitives used
by the source (`str.split('.')`, `'.'.join`, `str.startswith`, `str.endswith`,
`str.replace`, slicing, `os.path.join`) are modelled by the `py*` functions
below, each a direct functional transcription of the Python builtin on the
underlying character list.
-/

/-! Models of the Python string primitives used by the source. -/

/-- Model of Python `s.split('.')` on the character list: splitting on a single
separator character. `splitDotAux []` is `[[]]` just as `''.split('.') == ['']`. -/
def splitDotAux : List Char → List (List Char)
  | [] => [[]]
  | c :: cs =>
    if c = '.' then [] :: splitDotAux cs
    else
      match splitDotAux cs with
      | [] => [[c]]
      | g :: gs => (c :: g) :: gs

/-- Model of Python `s.split('.')`. -/
def pySplitDot (s : String) : List String :=
  (splitDotAux s.data).map String.mk

/-- Model of Python `'.'.join(l)` on character lists. -/
def joinDotAux : List (List Char) → List Char
  | [] => []
  | [x] => x
  | x :: y :: ys => x ++ '.' :: joinDotAux (y :: ys)

/-- Model of Python `'.'.join(l)`. -/
def pyJoinDot (l : List String) : String :=
  String.mk (joinDotAux (l.map String.data))

/-- Model of Python `'/'.join(l)` (used to express `os.path.join` over a
directory component path, relative to the walk base). -/
def joinSlashAux : List (List Char) → List Char
  | [] => []
  | [x] => x
  | x :: y :: ys => x ++ '/' :: joinSlashAux (y :: ys)

/-- Model of Python `'/'.join(l)`. -/
def pySlashJoin (l : List String) : String :=
  String.mk (joinSlashAux (l.map String.data))

/-- Model of Python `s.startswith(pre)`. -/
def pyStartswith (s pre : String) : Bool :=
  pre.data.isPrefixOf s.data

/-- Model of Python `s.endswith(suf)`. -/
def pyEndswith (s suf : String) : Bool :=
  suf.data.isSuffixOf s.data

/-- Model of Python `s[n:]` (character slicing from index `n`). -/
def pyDropChars (s : String) (n : Nat) : String :=
  String.mk (s.data.drop n)

/-- Model of Python `s.replace('.', os.path.sep)` with `os.path.sep = '/'`:
a single-character replace is a character map. -/
def pyDotsToSep (s : String) : String :=
  String.mk (s.data.map (fun c => if c = '.' then '/' else c))

/-- Model of Python `os.path.join(a, b)` for relative components:
`os.path.join('', b) = b`, otherwise `a + '/' + b`. -/
def pyPathJoin (a b : String) : String :=
  if a = "" then b else a ++ "/" ++ b

/-! Embedding of the Python `ast` fragment used by `declares_namespace_package`.
The source parses a marker file into a syntax tree and walks all of its nodes;
we model the relevant expression nodes (`ast.Name`, `ast.Attribute`,
`ast.Call`, string constants) and a parsed module as its list of top-level
expression statements (the package-marker files at issue consist of such
statements).  `call` carries the positional arguments, matching `ast.Call.args`. -/

inductive PyExpr where
  | name (id : String)
  | strLit (s : String)
  | attribute (value : PyExpr) (attr : String)
  | call (func : PyExpr) (args : List PyExpr)
deriving Repr

/-- A parsed module: its top-level expression statements. -/
abbrev PyModule := List PyExpr

mutual
/-- Model of `ast.walk` restricted to one expression: the node and all of its
descendants (the order is irrelevant to the source, which only scans). -/
def pyWalk : PyExpr → List PyExpr
  | .name i => [.name i]
  | .strLit s => [.strLit s]
  | .attribute v a => .attribute v a :: pyWalk v
  | .call f args => .call f args :: (pyWalk f ++ pyWalkList args)

def pyWalkList : List PyExpr → List PyExpr
  | [] => []
  | e :: es => pyWalk e ++ pyWalkList es
end

/-- `isinstance(node, ast.Call)`. -/
def isCallB : PyExpr → Bool
  | .call _ _ => true
  | _ => false

/-- `[node for node in ast.walk(init_py) if isinstance(node, ast.Call)]`. -/
def astCalls (m : PyModule) : List PyExpr :=
  (pyWalkList m).filter isCallB

/-- The body of the `for call in calls` loop of `declares_namespace_package`:
whether this call makes the loop `return True`.  Each `continue` of the source
becomes a `false`-producing guard, in source order:
`len(call.args) != 1`; `isinstance(call.func, ast.Attribute) and
call.func.attr != 'declare_namespace'`; `isinstance(call.func, ast.Name) and
call.func.id != 'declare_namespace'`; finally
`isinstance(call.args[0], ast.Name) and call.args[0].id == '__name__'`. -/
def callMatches : PyExpr → Bool
  | .call f args =>
    if args.length ≠ 1 then false
    else if (match f with | .attribute _ a => a != "declare_namespace" | _ => false) then false
    else if (match f with | .name i => i != "declare_namespace" | _ => false) then false
    else
      match args with
      | [PyExpr.name i] => i == "__name__"
      | _ => false
  | _ => false

/-- `SetupPy.declares_namespace_package`, over the parsed tree of the marker
file (file reading and `ast.parse` happen outside the embedded fragment; a
parse failure propagates in the source and is out of scope here).  The source
returns `True` on the first matching call and `False` when no call matches,
which for the returned value is exactly an existence scan. -/
def declares_namespace_package (m : PyModule) : Bool :=
  (astCalls m).any callMatches

/-! Embedding of `SetupPy.nearest_subpackage`.  In the source, the outer
argument is named `package` (the queried dotted path) and the loop variable
over `all_packages` is named `candidate`. -/

/-- The inner `shared_prefix(candidate)` of `nearest_subpackage`:
`zipped = itertools.izip(package.split('.'), candidate.split('.'))`;
`matching = itertools.takewhile(lambda pair: pair[0] == pair[1], zipped)`;
`return [pair[0] for pair in matching]`. -/
def sharedPrefixOf (package candidate : String) : List String :=
  ((((pySplitDot package).zip (pySplitDot candidate)).takeWhile
    (fun pair => pair.1 == pair.2)).map Prod.fst)

/-- Python `max(shared_packages, key=len)`: the first element of maximal
length (Python `max` keeps the earliest maximum). -/
def maxByLen (h : List String) (t : List (List String)) : List String :=
  t.foldl (fun acc x => if x.length > acc.length then x else acc) h

/-- `SetupPy.nearest_subpackage(package, all_packages)`.  `all_packages` is a
Python `set`; it is modelled as the list of its iteration order (the returned
value is independent of that order, every non-empty shared prefix being a
leading run of `package.split('.')`). -/
def nearest_subpackage (package : String) (all_packages : List String) : String :=
  match (all_packages.map (sharedPrefixOf package)).filter
      (fun l => l ≠ ([] : List String)) with
  | [] => package
  | h :: t => pyJoinDot (maxByLen h t)

/-! Embedding of `SetupPy.find_packages`.  The classifier consumes the chroot
through `os.walk` over `os.path.join(chroot.path(), 'src')`; per §6 of the
spec the materialized tree is an external collaborator, so it is modelled at
that interface: a `Listing` is the sequence of `(root, files)` pairs that
`os.walk` yields, with `root` given as its component path relative to the walk
base, and each file carrying its name together with the parsed tree of its
contents (only consulted for `__init__.py` markers; `ast.parse` failures
propagate in the source and are outside the embedded fragment). -/

abbrev Listing := List (List String × List (String × PyModule))

/-- `os.path.relpath(root, base).replace(os.path.sep, '.')`: the walk base
itself has relative path `'.'`. -/
def pathModule (p : List String) : String :=
  match p with
  | [] => "."
  | _ => pyJoinDot p

/-- `os.path.join(root, filename)`, expressed relative to the walk base. -/
def realFile (p : List String) (fn : String) : String :=
  pyPathJoin (pySlashJoin p) fn

/-- The inner generator `iter_files()`: yields
`(module, filename, real_filename)` for every file of every walked directory;
the parsed contents are carried along in place of the on-disk file. -/
def iterFilesC (L : Listing) : List (String × String × String × PyModule) :=
  L.bind (fun pr => pr.2.map (fun f => (pathModule pr.1, f.1, realFile pr.1 f.1, f.2)))

/-- Python `set.add` on a set modelled as its (deduplicated) insertion-order
list: membership is what the source consumes. -/
def setAdd (s : List String) (x : String) : List String :=
  if x ∈ s then s else s ++ [x]

/-- A `defaultdict(set)` keyed by strings, as an association list. -/
abbrev SetMap := List (String × List String)

/-- `m[k]` of a `defaultdict` (missing keys read as the empty set). -/
def setMapGet (m : SetMap) (k : String) : List String :=
  match m.find? (fun e => e.1 == k) with
  | some e => e.2
  | none => []

/-- `m[k].add(v)` of a `defaultdict(set)`. -/
def setMapAdd (m : SetMap) (k : String) (v : String) : SetMap :=
  match m with
  | [] => [(k, [v])]
  | e :: rest =>
    if e.1 = k then (e.1, if v ∈ e.2 then e.2 else e.2 ++ [v]) :: rest
    else e :: setMapAdd rest k v

/-- The first pass of `find_packages`: establish `packages` and
`namespace_packages` from the `__init__.py` markers. -/
def findPackagesPass1 (items : List (String × String × String × PyModule)) :
    List String × List String :=
  items.foldl
    (fun st it =>
      if it.2.1 ≠ "__init__.py" then st
      else
        (setAdd st.1 it.1,
         if declares_namespace_package it.2.2.2 then setAdd st.2 it.1 else st.2))
    ([], [])

/-- The warning printed for an orphan source file (the `%` format of the
source applied to `real_filename`). -/
def orphanWarning (real_filename : String) : String :=
  "WARNING!  " ++ real_filename ++ " is source but does not belong to a package!"

/-- The warnings list after one pass-2 item that was not skipped: a `.py`
file reaching this point is an orphan (its module is not a package) and gets
the warning appended; other files leave the warnings unchanged. -/
def pass2Warn (warnings : List String) (filename real_filename : String) : List String :=
  if pyEndswith filename ".py" then warnings ++ [orphanWarning real_filename]
  else warnings

/-- The `relative_filename` computed for a file recorded under a strict
ancestor package:
`relative_module = module[len(submodule) + 1:]`,
`relative_filename = os.path.join(relative_module.replace('.', os.path.sep), filename)`. -/
def pass2RelFile (module submodule filename : String) : String :=
  pyPathJoin (pyDotsToSep (pyDropChars module (submodule.length + 1))) filename

/-- The second pass of `find_packages`: resource / orphan classification.
Mirrors the loop body: a `.py` file whose module is a known package is
skipped (`continue`); a `.py` file of an unknown module gets a warning and
— the source has no `continue` there — falls through to resource
classification; classification records the file under
`submodule = nearest_subpackage(module, packages)`, package-relatively when
the module is a strict descendant, and the
`assert module.startswith(submodule + '.')` failure surfaces as an
`AssertionError` value. -/
def findPackagesPass2 (packages : List String) :
    List (String × String × String × PyModule) → SetMap × List String →
    Except String (SetMap × List String)
  | [], st => .ok st
  | (module, filename, real_filename, _content) :: rest, (resources, warnings) =>
    if pyEndswith filename ".py" && decide (module ∈ packages) then
      findPackagesPass2 packages rest (resources, warnings)
    else
      if nearest_subpackage module packages = module then
        findPackagesPass2 packages rest
          (setMapAdd resources (nearest_subpackage module packages) filename,
           pass2Warn warnings filename real_filename)
      else if pyStartswith module (nearest_subpackage module packages ++ ".") then
        findPackagesPass2 packages rest
          (setMapAdd resources (nearest_subpackage module packages)
             (pass2RelFile module (nearest_subpackage module packages) filename),
           pass2Warn warnings filename real_filename)
      else .error "AssertionError"

/-- The result of `find_packages`, with the emitted warnings made explicit. -/
structure FPResult where
  packages : List String
  namespace_packages : List String
  resources : SetMap
  warnings : List String
deriving Repr, DecidableEq

/-- `SetupPy.find_packages`. -/
def find_packages (L : Listing) : Except String FPResult :=
  let items := iterFilesC L
  let pass1 := findPackagesPass1 items
  match findPackagesPass2 pass1.1 items ([], []) with
  | .error e => .error e
  | .ok (resources, warnings) =>
    .ok ⟨pass1.1, pass1.2, resources, warnings⟩

/-! Embedding of `SetupPy.minified_dependencies`.

The build graph is the external collaborator of §6: targets are identified by
natural numbers, dependency references likewise, and the graph supplies the
accessors the source uses (`dependencies`, `provides`, `resolve`,
`isinstance(·, PythonTarget)`, `isinstance(·, PythonRequirement)`).  `n` is a
bound on the node identifiers `resolve()` can produce, used only to reason
about fuel sufficiency. -/

/-- A `PythonArtifact` as consumed by the minimizer: its key
(`provides.key`) and the dependency references of `provides.binaries.values()`
in insertion order. -/
structure PyArtifact where
  key : String
  binaries : List Nat
deriving Repr, DecidableEq

/-- The dependency graph interface. `deps t` is the (ordered, deduplicated)
list of dependency references of `t` (Python
`getattr(target, 'dependencies', OrderedSet())`); `resolveRef d` is
`d.resolve()`, the concrete targets a reference resolves to; `isPy t` is
`isinstance(t, PythonTarget)`; `isReq t` is `isinstance(t, PythonRequirement)`;
`provides t` is the target's `PythonArtifact`, when any. -/
structure DepGraph where
  n : Nat
  deps : Nat → List Nat
  resolveRef : Nat → List Nat
  isPy : Nat → Bool
  isReq : Nat → Bool
  provides : Nat → Option PyArtifact

/-- `target.provides.key` when `isinstance(target, PythonTarget) and
target.provides` holds — the condition guarding both the provider push and
the binaries union. -/
def providerKey (g : DepGraph) (t : Nat) : Option String :=
  match g.provides t with
  | some a => if g.isPy t then some a.key else none
  | none => none

/-- `OrderedSet.__or__`: left operand's order, then the right operand's new
elements in order. -/
def osUnion (a b : List Nat) : List Nat :=
  b.foldl (fun acc x => if x ∈ acc then acc else acc ++ [x]) a

/-- `combined_dependencies(target)`: the declared dependencies, union the
binaries of the provided artifact when the target is a providing
`PythonTarget`. -/
def combinedRefs (g : DepGraph) (t : Nat) : List Nat :=
  match g.provides t with
  | some a => if g.isPy t then osUnion (g.deps t) a.binaries else g.deps t
  | none => g.deps t

/-- The `depmap  = defaultdict(OrderedSet)` of the minimizer: provider key to
ordered set of resolved targets. -/
abbrev DepMap := List (String × List Nat)

/-- `depmap[prv]` (missing keys read as the empty ordered set). -/
def depMapGet (m : DepMap) (k : String) : List Nat :=
  match m.find? (fun e => e.1 == k) with
  | some e => e.2
  | none => []

/-- `depmap[prv].add(dep)` of a `defaultdict(OrderedSet)`. -/
def depMapAdd (m : DepMap) (k : String) (v : Nat) : DepMap :=
  match m with
  | [] => [(k, [v])]
  | e :: rest =>
    if e.1 = k then (e.1, if v ∈ e.2 then e.2 else e.2 ++ [v]) :: rest
    else e :: depMapAdd rest k v

/-- `depmap.pop(key, {})`, dropping the entry. -/
def depMapErase (m : DepMap) (k : String) : DepMap :=
  m.filter (fun e => e.1 != k)

/-- `any(target in depset for depset in depmap.values())`. -/
def depMapAny (m : DepMap) (t : Nat) : Bool :=
  m.any (fun e => e.2.contains t)

/-- The failures of the minimizer: `TargetDefinitionException` raised for a
cycle (carrying the root and the revisited dependency, the two names of its
message), the `assert providers[-1] == target.provides.key` failure, the
`AttributeError` of `root_target.provides.key` on a provider-less root, and
exhaustion of the recursion fuel of the embedding. -/
inductive RErr where
  | cycle (root : Nat) (dep : Nat)
  | assertFail
  | attrErr
  | fuelOut
deriving Repr, DecidableEq

/-- The mutable state threaded through `resolve`: the `providers` stack and
the `depmap`. -/
abbrev RSt := List String × DepMap

/-- The `for dep in dependency.resolve()` loop of `resolve`, for one provider
stack entry `prv`: `depmap[prv].add(dep)`; raise on `dep in parents`;
otherwise `parents.add(dep)`, recurse, `parents.remove(dep)` (functionally:
recurse with `dep :: parents`, continue with `parents`).  `recur` is the
recursive `resolve` at the next fuel.  In the source `depmap[prv].add(dep)`
precedes the cycle check; the raised exception aborts the whole
minimization, so the embedded error value carries no state and the add can
equivalently be attached to the non-raising branch. -/
def resLoop (root : Nat) (recur : Nat → List Nat → RSt → Except RErr RSt)
    (prv : String) : List Nat → List Nat → RSt → Except RErr RSt
  | [], _, st => .ok st
  | dep :: restDeps, parents, st =>
    if dep ∈ parents then .error (.cycle root dep)
    else
      match recur dep (dep :: parents) (st.1, depMapAdd st.2 prv dep) with
      | .error e => .error e
      | .ok st2 => resLoop root recur prv restDeps parents st2

/-- The `for prv in providers` loop of `resolve` for one dependency
reference `d`.  The source iterates the live `providers` list; on every
normally-returning recursion the stack is restored (the stack-discipline
invariant proved below), so iterating the snapshot taken when the loop starts
is faithful. -/
def prvLoop (g : DepGraph) (root : Nat)
    (recur : Nat → List Nat → RSt → Except RErr RSt) (d : Nat) :
    List String → List Nat → RSt → Except RErr RSt
  | [], _, st => .ok st
  | prv :: restPrvs, parents, st =>
    match resLoop root recur prv (g.resolveRef d) parents st with
    | .error e => .error e
    | .ok st2 => prvLoop g root recur d restPrvs parents st2

/-- The `for dependency in combined_dependencies(target)` loop of `resolve`. -/
def depsLoop (g : DepGraph) (root : Nat)
    (recur : Nat → List Nat → RSt → Except RErr RSt) :
    List Nat → List Nat → RSt → Except RErr RSt
  | [], _, st => .ok st
  | d :: restRefs, parents, st =>
    match prvLoop g root recur d st.1 parents st with
    | .error e => .error e
    | .ok st2 => depsLoop g root recur restRefs parents st2

/-- The inner `resolve(target, parents)` of `minified_dependencies`:
push the provider key when the target is a providing `PythonTarget`, run the
dependency loops, then `assert providers[-1] == target.provides.key` and pop.
`fuel` bounds the recursion depth of the embedding; `fuel ≥ g.n + 1` never
exhausts (proved below), matching the source, whose recursion depth is
bounded by the growth of `parents`. -/
def resolveT (g : DepGraph) (root : Nat) :
    Nat → Nat → List Nat → RSt → Except RErr RSt
  | 0, _, _, _ => .error .fuelOut
  | fuel + 1, t, parents, st =>
    let st1 : RSt := (st.1 ++ (providerKey g t).toList, st.2)
    match depsLoop g root (fun dep ps s => resolveT g root fuel dep ps s)
        (combinedRefs g t) parents st1 with
    | .error e => .error e
    | .ok st2 =>
      match providerKey g t with
      | none => .ok st2
      | some k =>
        match st2.1.getLast? with
        | some k2 => if k2 = k then .ok (st2.1.dropLast, st2.2) else .error .assertFail
        | none => .error .assertFail

/-- Modelled from the spec: `Target.walk` (defined outside the embedded
source file) as used by `root_target.walk(elide)` — §4.1 step 8 walks "every
Node in `root`'s own source subtree (its transitive declared-dependency tree,
independent of provider boundaries)", visiting each node once.  The returned
list is the set of visited nodes; `elide` only tests membership, so the visit
order is irrelevant.  `fuel` bounds the number of worklist steps of the
embedding (structural recursion, so concrete runs evaluate by reduction). -/
def walkNodes (g : DepGraph) : Nat → List Nat → List Nat → List Nat
  | 0, _, visited => visited
  | _ + 1, [], visited => visited
  | fuel + 1, t :: ts, visited =>
    if t ∈ visited then walkNodes g fuel ts visited
    else
      walkNodes g fuel ts
        (walkNodes g fuel (((g.deps t).map g.resolveRef).join) (visited ++ [t]))

/-- `SetupPy.minified_dependencies(root_target)`:
run `resolve(root_target)`, pop the root's closure from the depmap as
`root_deps`, then `root_target.walk(elide)` discards from `root_deps` every
walked target lying in some remaining provider's closure set. -/
def minified_dependencies (g : DepGraph) (fuel : Nat) (root : Nat) :
    Except RErr (List Nat) :=
  match resolveT g root fuel root [] ([], []) with
  | .error e => .error e
  | .ok (_, depmap) =>
    match g.provides root with
    | none => .error .attrErr
    | some art =>
      let root_deps := depMapGet depmap art.key
      let depmap2 := depMapErase depmap art.key
      let walked := walkNodes g fuel [root] []
      .ok (root_deps.filter (fun t => !(walked.contains t && depMapAny depmap2 t)))

/-- One step of the dependency relation the traversal follows: `b` is among
the resolutions of some combined dependency reference of `a`. -/
def stepB (g : DepGraph) (a b : Nat) : Bool :=
  (combinedRefs g a).any (fun d => (g.resolveRef d).contains b)

/-- The step relation as a proposition. -/
def StepC (g : DepGraph) (a b : Nat) : Prop := stepB g a b = true

instance (g : DepGraph) (a b : Nat) : Decidable (StepC g a b) :=
  inferInstanceAs (Decidable (stepB g a b = true))

/-- `b` reachable from `a` in one or more traversal steps. -/
def ReachPlus (g : DepGraph) : Nat → Nat → Prop := Relation.TransGen (StepC g)

/-- `b` reachable from `a` in zero or more traversal steps. -/
def ReachStar (g : DepGraph) : Nat → Nat → Prop := Relation.ReflTransGen (StepC g)

/-- Deciding equality of `Except` results (for evaluating the embedding at
concrete inputs). -/
instance {ε α : Type} [DecidableEq ε] [DecidableEq α] : DecidableEq (Except ε α) := fun
  | .ok a, .ok b =>
    if h : a = b then .isTrue (by rw [h]) else .isFalse (by simp [h])
  | .ok _, .error _ => .isFalse (by simp)
  | .error _, .ok _ => .isFalse (by simp)
  | .error e, .error f =>
    if h : e = f then .isTrue (by rw [h]) else .isFalse (by simp [h])

/-! Predicates transcribing claim C3's wording, for comparison with the
source's detector. -/

/-- C3's condition on the called function: "named `declare_namespace`, either
as a bare name or as an attribute access ending in that name". -/
def claimFuncNamedB : PyExpr → Bool
  | .name i => i == "declare_namespace"
  | .attribute _ a => a == "declare_namespace"
  | _ => false

/-- C3's condition on a call: exactly one positional argument that is the
bare name `__name__`, and a called function per `claimFuncNamedB`. -/
def claimCallB : PyExpr → Bool
  | .call f args =>
    claimFuncNamedB f &&
      (match args with
       | [PyExpr.name i] => i == "__name__"
       | _ => false)
  | _ => false

/-- The detector behaviour claim C3 describes: some call of the tree
matches `claimCallB`. -/
def specDetectorB (m : PyModule) : Bool :=
  (astCalls m).any claimCallB

/-- The condition the amended C3 puts on one call: exactly one positional
argument that is the bare name `__name__`, and a called function that is not
a bare name other than `declare_namespace` and not an attribute access whose
attribute differs from `declare_namespace` (any other shape of callee is
accepted by the source). -/
def AmendedNsCall (c : PyExpr) : Prop :=
  ∃ f args, c = PyExpr.call f args ∧ args = [PyExpr.name "__name__"] ∧
    (∀ i, f = PyExpr.name i → i = "declare_namespace") ∧
    (∀ v a, f = PyExpr.attribute v a → a = "declare_namespace")

/-! Concrete marker-file trees for C3. -/

/-- `__import__("pkg_resources").declare_namespace(__name__)`. -/
def markerImportDeclare : PyModule :=
  [.call (.attribute (.call (.name "__import__") [.strLit "pkg_resources"]) "declare_namespace")
    [.name "__name__"]]

/-- `pkg_resources.declare_namespace(__name__)`. -/
def markerPkgResources : PyModule :=
  [.call (.attribute (.name "pkg_resources") "declare_namespace") [.name "__name__"]]

/-- A marker file with no namespace-declaring call (`print("hi")`). -/
def markerPlain : PyModule :=
  [.call (.name "print") [.strLit "hi"]]

/-- `declare_namespace(other_name)`. -/
def markerOtherName : PyModule :=
  [.call (.name "declare_namespace") [.name "other_name"]]

/-- `f()(__name__)`: a single-argument call of `__name__` whose callee is
itself a call — neither an `ast.Name` nor an `ast.Attribute`. -/
def markerFuncCall : PyModule :=
  [.call (.call (.name "f") []) [.name "__name__"]]

/-! Concrete directory listings for C1 and C8. -/

/-- The walk of a tree with package `a` (marker without namespace call) and
an orphan source file `a/c/hello.py` in the undiscovered directory `a/c`. -/
def listingC1 : Listing :=
  [([], []),
   (["a"], [("__init__.py", markerPlain)]),
   (["a", "c"], [("hello.py", [])])]

/-- The walk of C8's tree: packages `a` and `a.b`, files `a/data.json`,
`a/b/img.png` and `a/c/extra.txt`, with `a.c` not a package. -/
def listingC8 : Listing :=
  [([], []),
   (["a"], [("__init__.py", markerPlain), ("data.json", [])]),
   (["a", "b"], [("__init__.py", markerPlain), ("img.png", [])]),
   (["a", "c"], [("extra.txt", [])])]

/-! Concrete dependency graphs. -/

/-- C5's graph: root `R = 0` provides artifact `"r"` and depends on the
provider-less source target `X = 2` and on the sibling provider `S = 1`
(artifact `"s"`), which also depends on `X`. -/
def gC5 : DepGraph where
  n := 3
  deps := fun t => match t with | 0 => [2, 1] | 1 => [2] | _ => []
  resolveRef := fun d => match d with | 0 => [0] | 1 => [1] | 2 => [2] | _ => []
  isPy := fun _ => true
  isReq := fun _ => false
  provides := fun t => match t with
    | 0 => some ⟨"r", []⟩
    | 1 => some ⟨"s", []⟩
    | _ => none

/-- C2's graph: root `R = 0` (artifact `"r"`) depends on the sibling provider
`S = 1` (artifact `"s"`), which depends on the requirement node `X = 2`
(a `PythonRequirement`, not a `PythonTarget`). -/
def gC2 : DepGraph where
  n := 3
  deps := fun t => match t with | 0 => [1] | 1 => [2] | _ => []
  resolveRef := fun d => match d with | 0 => [0] | 1 => [1] | 2 => [2] | _ => []
  isPy := fun t => match t with | 2 => false | _ => true
  isReq := fun t => match t with | 2 => true | _ => false
  provides := fun t => match t with
    | 0 => some ⟨"r", []⟩
    | 1 => some ⟨"s", []⟩
    | _ => none

/-- A two-node graph for witnessing non-elision: root `R = 0` (artifact
`"r"`) depends directly on the requirement node `X = 1`, with no sibling
provider. -/
def gReqOnly : DepGraph where
  n := 2
  deps := fun t => match t with | 0 => [1] | _ => []
  resolveRef := fun d => match d with | 0 => [0] | 1 => [1] | _ => []
  isPy := fun t => match t with | 1 => false | _ => true
  isReq := fun t => match t with | 1 => true | _ => false
  provides := fun t => match t with
    | 0 => some ⟨"r", []⟩
    | _ => none

/-- The cyclic graph `A → B → C → A` of C4's first scenario, every node
providing an artifact. -/
def gCycle : DepGraph where
  n := 3
  deps := fun t => match t with | 0 => [1] | 1 => [2] | 2 => [0] | _ => []
  resolveRef := fun d => match d with | 0 => [0] | 1 => [1] | 2 => [2] | _ => []
  isPy := fun _ => true
  isReq := fun _ => false
  provides := fun t => match t with
    | 0 => some ⟨"a", []⟩
    | 1 => some ⟨"b", []⟩
    | 2 => some ⟨"c", []⟩
    | _ => none

/-- C4's second scenario: an acyclic graph sharing a common leaf,
`A → C` and `B → C` with no edge between `A` and `B`, reached from a
providing root `R = 0` (`A = 1`, `B = 2`, `C = 3`). -/
def gDiamond : DepGraph where
  n := 4
  deps := fun t => match t with | 0 => [1, 2] | 1 => [3] | 2 => [3] | _ => []
  resolveRef := fun d => match d with | 0 => [0] | 1 => [1] | 2 => [2] | 3 => [3] | _ => []
  isPy := fun _ => true
  isReq := fun _ => false
  provides := fun t => match t with
    | 0 => some ⟨"root", []⟩
    | _ => none

/-! Facts about the string models. -/

theorem splitDotAux_ne_nil (cs : List Char) : splitDotAux cs ≠ [] := by
  induction cs with
  | nil => simp [splitDotAux]
  | cons c cs ih =>
    simp only [splitDotAux]
    split
    · simp
    · match h : splitDotAux cs with
      | [] => exact absurd h ih
      | g :: gs => simp

theorem joinDotAux_splitDotAux (cs : List Char) :
    joinDotAux (splitDotAux cs) = cs := by
  induction cs with
  | nil => simp [splitDotAux, joinDotAux]
  | cons c cs ih =>
    simp only [splitDotAux]
    split
    · rename_i hdot
      match h : splitDotAux cs with
      | [] => exact absurd h (splitDotAux_ne_nil cs)
      | g :: gs =>
        rw [h] at ih
        simp [joinDotAux, ih, hdot]
    · match h : splitDotAux cs with
      | [] => exact absurd h (splitDotAux_ne_nil cs)
      | [g] =>
        rw [h] at ih
        simp only [joinDotAux] at ih ⊢
        simp [ih]
      | g :: g2 :: gs =>
        rw [h] at ih
        simp only [joinDotAux] at ih ⊢
        simp [ih]

theorem joinDotAux_append (a b : List (List Char)) (ha : a ≠ []) (hb : b ≠ []) :
    joinDotAux (a ++ b) = joinDotAux a ++ '.' :: joinDotAux b := by
  induction a with
  | nil => exact absurd rfl ha
  | cons x xs ih =>
    match xs with
    | [] =>
      match b with
      | [] => exact absurd rfl hb
      | y :: ys => simp [joinDotAux]
    | x2 :: xs2 =>
      have h2 := ih (by simp)
      rw [List.cons_append] at h2
      simp only [List.cons_append, joinDotAux, List.append_eq]
      simp [h2]

theorem stringMk_data (s : String) : String.mk s.data = s := rfl

theorem pyJoinDot_pySplitDot (s : String) : pyJoinDot (pySplitDot s) = s := by
  simp only [pyJoinDot, pySplitDot, List.map_map]
  rw [show ((fun s => String.data s) ∘ String.mk) = (id : List Char → List Char) from rfl]
  simp [joinDotAux_splitDotAux, stringMk_data]

theorem pyJoinDot_append (a b : List String) (ha : a ≠ []) (hb : b ≠ []) :
    pyJoinDot (a ++ b) = pyJoinDot a ++ "." ++ pyJoinDot b := by
  have hd : (pyJoinDot a ++ "." ++ pyJoinDot b).data
      = joinDotAux (a.map String.data) ++ '.' :: joinDotAux (b.map String.data) := by
    simp [String.data_append, pyJoinDot]
  have : pyJoinDot (a ++ b)
      = String.mk (joinDotAux (a.map String.data) ++ '.' :: joinDotAux (b.map String.data)) := by
    rw [pyJoinDot, List.map_append, joinDotAux_append _ _ (by simpa using ha) (by simpa using hb)]
  rw [this, ← hd, stringMk_data]

/-- First-step decomposition of a transitive closure. -/
theorem transGen_head_decomp {α : Type} {r : α → α → Prop} {a b : α}
    (h : Relation.TransGen r a b) :
    ∃ c, r a c ∧ (c = b ∨ Relation.TransGen r c b) := by
  induction h with
  | single h => exact ⟨_, h, Or.inl rfl⟩
  | tail _ hbc ih =>
    obtain ⟨c, hac, hcb⟩ := ih
    cases hcb with
    | inl he => exact ⟨c, hac, Or.inr (he ▸ Relation.TransGen.single hbc)⟩
    | inr ht => exact ⟨c, hac, Or.inr (ht.tail hbc)⟩

/-! The detector: equivalence of the loop body with the amended C3 wording. -/

theorem amended_call_iff (f : PyExpr) (args : List PyExpr) :
    AmendedNsCall (.call f args) ↔
      (args = [PyExpr.name "__name__"] ∧
       (∀ i, f = PyExpr.name i → i = "declare_namespace") ∧
       (∀ v a, f = PyExpr.attribute v a → a = "declare_namespace")) := by
  constructor
  · rintro ⟨f2, args2, heq, h1, h2, h3⟩
    injection heq with hf ha
    subst hf; subst ha
    exact ⟨h1, h2, h3⟩
  · rintro ⟨h1, h2, h3⟩
    exact ⟨f, args, rfl, h1, h2, h3⟩

theorem callMatches_iff_amended (c : PyExpr) : callMatches c = true ↔ AmendedNsCall c := by
  match c with
  | .name i => simp [callMatches, AmendedNsCall]
  | .strLit s => simp [callMatches, AmendedNsCall]
  | .attribute v a => simp [callMatches, AmendedNsCall]
  | .call f args =>
    rw [amended_call_iff]
    match args with
    | [] => simp [callMatches]
    | a1 :: a2 :: rest => simp [callMatches]
    | [a1] =>
      match a1 with
      | .name i =>
        match f with
        | .name j => simp [callMatches]; tauto
        | .strLit s => simp [callMatches]
        | .attribute v a => simp [callMatches]; tauto
        | .call f2 args2 => simp [callMatches]
      | .strLit s => simp [callMatches]
      | .attribute v a => simp [callMatches]
      | .call f2 args2 => simp [callMatches]

/-- C3 (counterexample): for the marker file `f()(__name__)` the source's
detector returns true although the called function is neither a bare
`declare_namespace` nor an attribute access ending in it, so the detector is
not equivalent to the behaviour the claim states. -/
theorem C3_counterexample :
    declares_namespace_package markerFuncCall = true ∧
    specDetectorB markerFuncCall = false ∧
    ¬(declares_namespace_package markerFuncCall = true ↔
        specDetectorB markerFuncCall = true) := by
  decide

/-- C3 (amended): `declares_namespace_package` returns true iff the tree has
a call with exactly one positional argument, the bare name `__name__`, whose
called function is not a bare name other than `declare_namespace` and not an
attribute access with a different attribute (calls of any other callee shape
are accepted); in particular it is true for
`__import__("pkg_resources").declare_namespace(__name__)` and
`pkg_resources.declare_namespace(__name__)`, false for a file with no such
call and for `declare_namespace(other_name)`. -/
theorem C3_detector_amended :
    (∀ m : PyModule,
      declares_namespace_package m = true ↔ ∃ c ∈ astCalls m, AmendedNsCall c) ∧
    declares_namespace_package markerImportDeclare = true ∧
    declares_namespace_package markerPkgResources = true ∧
    declares_namespace_package markerPlain = false ∧
    declares_namespace_package markerOtherName = false := by
  refine ⟨?_, by decide, by decide, by decide, by decide⟩
  intro m
  rw [declares_namespace_package, List.any_eq_true]
  constructor
  · rintro ⟨c, hc, hm⟩
    exact ⟨c, hc, (callMatches_iff_amended c).1 hm⟩
  · rintro ⟨c, hc, hm⟩
    exact ⟨c, hc, (callMatches_iff_amended c).2 hm⟩

/-! `max(key=len)` and shared-prefix facts for `nearest_subpackage`. -/

theorem maxByLen_cons (h x : List String) (t : List (List String)) :
    maxByLen h (x :: t) = maxByLen (if x.length > h.length then x else h) t := rfl

theorem maxByLen_mem (h : List String) (t : List (List String)) :
    maxByLen h t = h ∨ maxByLen h t ∈ t := by
  induction t generalizing h with
  | nil => exact Or.inl rfl
  | cons x xs ih =>
    rw [maxByLen_cons]
    rcases ih (if x.length > h.length then x else h) with h1 | h1
    · rw [h1]
      split
      · exact Or.inr (List.mem_cons_self _ _)
      · exact Or.inl rfl
    · exact Or.inr (List.mem_cons_of_mem _ h1)

theorem maxByLen_ge_head (h : List String) (t : List (List String)) :
    h.length ≤ (maxByLen h t).length := by
  induction t generalizing h with
  | nil => exact le_refl _
  | cons x xs ih =>
    rw [maxByLen_cons]
    refine le_trans ?_ (ih (if x.length > h.length then x else h))
    split
    · omega
    · exact le_refl _

theorem maxByLen_max (h : List String) (t : List (List String)) :
    ∀ x ∈ h :: t, x.length ≤ (maxByLen h t).length := by
  induction t generalizing h with
  | nil =>
    intro x hx
    rw [List.mem_singleton] at hx
    rw [hx]
    exact le_refl _
  | cons y ys ih =>
    intro x hx
    rw [maxByLen_cons]
    rcases List.mem_cons.1 hx with rfl | hx2
    · refine le_trans ?_ (maxByLen_ge_head _ ys)
      split
      · omega
      · exact le_refl _
    · rcases List.mem_cons.1 hx2 with rfl | hx3
      · refine le_trans ?_ (maxByLen_ge_head _ ys)
        split
        · exact le_refl _
        · omega
      · exact ih _ _ (List.mem_cons_of_mem _ hx3)

theorem sharedPrefixOf_prefix (p q : String) :
    sharedPrefixOf p q <+: pySplitDot p := by
  unfold sharedPrefixOf
  generalize pySplitDot p = a
  generalize pySplitDot q = b
  induction a generalizing b with
  | nil => simp
  | cons x xs ih =>
    match b with
    | [] => simp
    | y :: ys =>
      rw [List.zip_cons_cons, List.takeWhile_cons]
      by_cases hxy : (x == y) = true
      · simp only [hxy, List.map_cons]
        exact (List.cons_prefix_cons).2 ⟨rfl, ih ys⟩
      · simp only [Bool.not_eq_true] at hxy
        simp [hxy]

/-- The dichotomy of `nearest_subpackage`: it returns either its argument
unchanged, or the dot-join of a non-empty strict leading component run of the
argument, in which case `package.startswith(result + '.')` holds. -/
theorem nearest_subpackage_cases (package : String) (all_packages : List String) :
    nearest_subpackage package all_packages = package ∨
    ∃ pre rest, pre ≠ [] ∧ rest ≠ [] ∧ pySplitDot package = pre ++ rest ∧
      nearest_subpackage package all_packages = pyJoinDot pre ∧
      package = nearest_subpackage package all_packages ++ "." ++ pyJoinDot rest ∧
      pyStartswith package (nearest_subpackage package all_packages ++ ".") = true := by
  match hm : (all_packages.map (sharedPrefixOf package)).filter
      (fun l => l ≠ ([] : List String)) with
  | [] =>
    left
    unfold nearest_subpackage
    rw [hm]
  | h0 :: t0 =>
    have hnear : nearest_subpackage package all_packages = pyJoinDot (maxByLen h0 t0) := by
      unfold nearest_subpackage
      rw [hm]
    have hmem : maxByLen h0 t0 ∈ (all_packages.map (sharedPrefixOf package)).filter
        (fun l => l ≠ ([] : List String)) := by
      rw [hm]
      rcases maxByLen_mem h0 t0 with h1 | h1
      · rw [h1]; exact List.mem_cons_self _ _
      · exact List.mem_cons_of_mem _ h1
    have hmem2 := List.mem_filter.1 hmem
    have hne : maxByLen h0 t0 ≠ [] := by
      have := hmem2.2
      simpa using this
    obtain ⟨q, _hq, hshared⟩ := List.mem_map.1 hmem2.1
    have hpre : maxByLen h0 t0 <+: pySplitDot package := by
      rw [← hshared]; exact sharedPrefixOf_prefix package q
    obtain ⟨rest, hrest⟩ := hpre
    match rest with
    | [] =>
      left
      rw [List.append_nil] at hrest
      rw [hnear, hrest, pyJoinDot_pySplitDot]
    | r1 :: rs =>
      right
      have hsplit : package = pyJoinDot (maxByLen h0 t0) ++ "." ++ pyJoinDot (r1 :: rs) := by
        conv_lhs => rw [← pyJoinDot_pySplitDot package]
        rw [← hrest, pyJoinDot_append _ _ hne (by simp)]
      refine ⟨maxByLen h0 t0, r1 :: rs, hne, by simp, hrest.symm, hnear, ?_, ?_⟩
      · rw [hnear]; exact hsplit
      · rw [hnear, pyStartswith, List.isPrefixOf_iff_prefix]
        conv_rhs => rw [hsplit]
        refine ⟨(pyJoinDot (r1 :: rs)).data, ?_⟩
        simp [String.data_append]

/-! Totality of the classifier: the `assert` of `find_packages` never fires. -/

theorem findPackagesPass2_total (pk : List String) :
    ∀ (items : List (String × String × String × PyModule)) (st : SetMap × List String),
      ∃ st2, findPackagesPass2 pk items st = .ok st2 := by
  intro items
  induction items with
  | nil => intro st; exact ⟨st, rfl⟩
  | cons it rest ih =>
    intro st
    obtain ⟨module, filename, rf, c⟩ := it
    obtain ⟨res, ws⟩ := st
    rw [findPackagesPass2]
    split
    · exact ih _
    · split
      · exact ih _
      · split
        · exact ih _
        · rename_i h1 h2
          rcases nearest_subpackage_cases module pk with h3 | ⟨_, _, _, _, _, _, _, h3⟩
          · exact absurd h3 h1
          · exact absurd h3 (by simpa using h2)

theorem pass2Warn_mem (warnings : List String) (filename real_filename w : String)
    (h : w ∈ warnings) : w ∈ pass2Warn warnings filename real_filename := by
  rw [pass2Warn]
  split
  · exact List.mem_append_left _ h
  · exact h

theorem find_packages_ok (L : Listing) :
    ∃ r, find_packages L = .ok r ∧
      r.packages = (findPackagesPass1 (iterFilesC L)).1 ∧
      findPackagesPass2 (findPackagesPass1 (iterFilesC L)).1 (iterFilesC L) ([], []) =
        .ok (r.resources, r.warnings) := by
  obtain ⟨st2, hst2⟩ :=
    findPackagesPass2_total (findPackagesPass1 (iterFilesC L)).1 (iterFilesC L) ([], [])
  obtain ⟨res, ws⟩ := st2
  exact ⟨⟨(findPackagesPass1 (iterFilesC L)).1, (findPackagesPass1 (iterFilesC L)).2, res, ws⟩,
    by simp only [find_packages, hst2], rfl, hst2⟩

/-- C9: `nearest_subpackage` returns either the candidate itself or the
dot-join of a non-empty strict leading component run of the candidate, in
which case the candidate equals the result followed by a dot and the (joined)
remainder of its components and `package.startswith(result + '.')` holds;
hence the `assert module.startswith(submodule + '.')` in the
resource-classification pass never fails and `find_packages` always returns
normally. -/
theorem C9_nearest_prefix_safety :
    (∀ (package : String) (all_packages : List String),
      nearest_subpackage package all_packages = package ∨
      ∃ pre rest, pre ≠ [] ∧ rest ≠ [] ∧ pySplitDot package = pre ++ rest ∧
        nearest_subpackage package all_packages = pyJoinDot pre ∧
        package = nearest_subpackage package all_packages ++ "." ++ pyJoinDot rest ∧
        pyStartswith package (nearest_subpackage package all_packages ++ ".") = true) ∧
    (∀ L : Listing, ∃ r, find_packages L = .ok r) := by
  constructor
  · exact nearest_subpackage_cases
  · intro L
    obtain ⟨r, hr, _⟩ := find_packages_ok L
    exact ⟨r, hr⟩

/-- C7: `nearest_subpackage` returns the dot-joined longest shared leading
component run between the candidate and any package of the set, maximized
over all packages among those sharing a non-empty leading run; when no
package shares even one leading component it returns the candidate
unchanged. -/
theorem C7_nearest_subpackage_maximal :
    ∀ (package : String) (all_packages : List String),
      ((∀ q ∈ all_packages, sharedPrefixOf package q = []) →
        nearest_subpackage package all_packages = package) ∧
      ((∃ q ∈ all_packages, sharedPrefixOf package q ≠ []) →
        ∃ q ∈ all_packages, sharedPrefixOf package q ≠ [] ∧
          nearest_subpackage package all_packages = pyJoinDot (sharedPrefixOf package q) ∧
          ∀ q2 ∈ all_packages,
            (sharedPrefixOf package q2).length ≤ (sharedPrefixOf package q).length) := by
  intro package all_packages
  constructor
  · intro hall
    have hnil : (all_packages.map (sharedPrefixOf package)).filter
        (fun l => l ≠ ([] : List String)) = [] := by
      rw [List.filter_eq_nil]
      intro l hl
      obtain ⟨q, hq, rfl⟩ := List.mem_map.1 hl
      simpa using hall q hq
    unfold nearest_subpackage
    rw [hnil]
  · intro hex
    obtain ⟨q0, hq0, hq0ne⟩ := hex
    match hm : (all_packages.map (sharedPrefixOf package)).filter
        (fun l => l ≠ ([] : List String)) with
    | [] =>
      exfalso
      have : sharedPrefixOf package q0 ∈ (all_packages.map (sharedPrefixOf package)).filter
          (fun l => l ≠ ([] : List String)) := by
        rw [List.mem_filter]
        exact ⟨List.mem_map_of_mem _ hq0, by simpa using hq0ne⟩
      rw [hm] at this
      exact absurd this (List.not_mem_nil _)
    | h0 :: t0 =>
      have hnear : nearest_subpackage package all_packages = pyJoinDot (maxByLen h0 t0) := by
        unfold nearest_subpackage
        rw [hm]
      have hmem : maxByLen h0 t0 ∈ (all_packages.map (sharedPrefixOf package)).filter
          (fun l => l ≠ ([] : List String)) := by
        rw [hm]
        rcases maxByLen_mem h0 t0 with h1 | h1
        · rw [h1]; exact List.mem_cons_self _ _
        · exact List.mem_cons_of_mem _ h1
      have hmem2 := List.mem_filter.1 hmem
      obtain ⟨q, hq, hshared⟩ := List.mem_map.1 hmem2.1
      refine ⟨q, hq, by rw [hshared]; simpa using hmem2.2, by rw [hshared, hnear], ?_⟩
      intro q2 hq2
      rw [hshared]
      by_cases h2 : sharedPrefixOf package q2 = []
      · rw [h2]; exact Nat.zero_le _
      · have : sharedPrefixOf package q2 ∈ h0 :: t0 := by
          rw [← hm, List.mem_filter]
          exact ⟨List.mem_map_of_mem _ hq2, by simpa using h2⟩
        exact maxByLen_max h0 t0 _ this

/-- Witness for C7 at a concrete input: candidate `"a.b.c"` against the
package set `{"x", "a.b"}` picks the shared run of `"a.b"`. -/
theorem C7_nearest_subpackage_maximal_witness :
    ∃ q ∈ ["x", "a.b"], sharedPrefixOf "a.b.c" q ≠ [] ∧
      nearest_subpackage "a.b.c" ["x", "a.b"] = pyJoinDot (sharedPrefixOf "a.b.c" q) ∧
      ∀ q2 ∈ ["x", "a.b"],
        (sharedPrefixOf "a.b.c" q2).length ≤ (sharedPrefixOf "a.b.c" q).length :=
  (C7_nearest_subpackage_maximal "a.b.c" ["x", "a.b"]).2 ⟨"a.b", by decide, by decide⟩

/-! Lookup facts for `SetMap`. -/

theorem setMapGet_cons_pos (k1 : String) (v : List String) (rest : SetMap) (k : String)
    (h : k1 = k) : setMapGet ((k1, v) :: rest) k = v := by
  rw [setMapGet, List.find?_cons_of_pos]
  · simp [h]

theorem setMapGet_cons_neg (k1 : String) (v : List String) (rest : SetMap) (k : String)
    (h : k1 ≠ k) : setMapGet ((k1, v) :: rest) k = setMapGet rest k := by
  rw [setMapGet, List.find?_cons_of_neg, setMapGet]
  simp [h]

theorem setMapAdd_get_self (m : SetMap) (k v : String) :
    v ∈ setMapGet (setMapAdd m k v) k := by
  induction m with
  | nil => simp [setMapAdd, setMapGet, List.find?]
  | cons e rest ih =>
    obtain ⟨ek, ev⟩ := e
    rw [setMapAdd]
    dsimp only
    split
    · rename_i he
      rw [setMapGet_cons_pos _ _ _ _ he]
      split
      · assumption
      · simp
    · rename_i he
      rw [setMapGet_cons_neg _ _ _ _ he]
      exact ih

theorem setMapAdd_get_mono (m : SetMap) (k2 v2 k x : String)
    (h : x ∈ setMapGet m k) : x ∈ setMapGet (setMapAdd m k2 v2) k := by
  induction m with
  | nil => simp [setMapGet, List.find?] at h
  | cons e rest ih =>
    obtain ⟨ek, ev⟩ := e
    rw [setMapAdd]
    dsimp only
    split
    · rename_i he
      by_cases hk : ek = k
      · rw [setMapGet_cons_pos _ _ _ _ hk] at h
        rw [setMapGet_cons_pos _ _ _ _ hk]
        split
        · exact h
        · exact List.mem_append_left _ h
      · rw [setMapGet_cons_neg _ _ _ _ hk] at h
        rw [setMapGet_cons_neg _ _ _ _ hk]
        exact h
    · rename_i he
      by_cases hk : ek = k
      · rw [setMapGet_cons_pos _ _ _ _ hk] at h
        rw [setMapGet_cons_pos _ _ _ _ hk]
        exact h
      · rw [setMapGet_cons_neg _ _ _ _ hk] at h
        rw [setMapGet_cons_neg _ _ _ _ hk]
        exact ih h

/-! Preservation and progress through pass 2 of the classifier. -/

theorem findPackagesPass2_mono (pk : List String) :
    ∀ (items : List (String × String × String × PyModule)) (st st2 : SetMap × List String),
      findPackagesPass2 pk items st = .ok st2 →
      (∀ w ∈ st.2, w ∈ st2.2) ∧ (∀ k x, x ∈ setMapGet st.1 k → x ∈ setMapGet st2.1 k) := by
  intro items
  induction items with
  | nil =>
    intro st st2 h
    rw [findPackagesPass2] at h
    injection h with h
    subst h
    exact ⟨fun w hw => hw, fun k x hx => hx⟩
  | cons it rest ih =>
    intro st st2 h
    obtain ⟨module, filename, rf, c⟩ := it
    obtain ⟨res, ws⟩ := st
    rw [findPackagesPass2] at h
    split at h
    · exact ih _ _ h
    · split at h
      · have h2 := ih _ _ h
        exact ⟨fun w hw => h2.1 _ (pass2Warn_mem _ _ _ _ hw),
          fun k x hx => h2.2 _ _ (setMapAdd_get_mono _ _ _ _ _ hx)⟩
      · split at h
        · have h2 := ih _ _ h
          exact ⟨fun w hw => h2.1 _ (pass2Warn_mem _ _ _ _ hw),
            fun k x hx => h2.2 _ _ (setMapAdd_get_mono _ _ _ _ _ hx)⟩
        · exact absurd h (by simp)

theorem findPackagesPass2_hit (pk : List String) :
    ∀ (items : List (String × String × String × PyModule)) (res : SetMap)
      (ws : List String) (st2 : SetMap × List String)
      (module filename rf : String) (c : PyModule),
      (module, filename, rf, c) ∈ items →
      pyEndswith filename ".py" = true →
      module ∉ pk →
      findPackagesPass2 pk items (res, ws) = .ok st2 →
      orphanWarning rf ∈ st2.2 ∧
      (if nearest_subpackage module pk = module then filename
       else pass2RelFile module (nearest_subpackage module pk) filename)
        ∈ setMapGet st2.1 (nearest_subpackage module pk) := by
  intro items
  induction items with
  | nil =>
    intro res ws st2 module filename rf c hmem
    exact absurd hmem (List.not_mem_nil _)
  | cons it rest ih =>
    intro res ws st2 module filename rf c hmem hpy hnot h
    rcases List.mem_cons.1 hmem with heq | hmem2
    · subst heq
      rw [findPackagesPass2] at h
      have hskip : (pyEndswith filename ".py" && decide (module ∈ pk)) = false := by
        simp [hnot]
      rw [hskip] at h
      simp only [Bool.false_eq_true, if_false] at h
      have hwmem : orphanWarning rf ∈ pass2Warn ws filename rf := by
        rw [pass2Warn, hpy]
        simp
      split at h
      · rename_i hsub
        have h2 := findPackagesPass2_mono pk rest _ _ h
        refine ⟨h2.1 _ hwmem, ?_⟩
        rw [if_pos hsub]
        exact h2.2 _ _ (setMapAdd_get_self _ _ _)
      · split at h
        · rename_i hsub hpre
          have h2 := findPackagesPass2_mono pk rest _ _ h
          refine ⟨h2.1 _ hwmem, ?_⟩
          rw [if_neg hsub]
          exact h2.2 _ _ (setMapAdd_get_self _ _ _)
        · exact absurd h (by simp)
    · obtain ⟨m2, f2, r2, c2⟩ := it
      rw [findPackagesPass2] at h
      split at h
      · exact ih _ _ _ _ _ _ _ hmem2 hpy hnot h
      · split at h
        · exact ih _ _ _ _ _ _ _ hmem2 hpy hnot h
        · split at h
          · exact ih _ _ _ _ _ _ _ hmem2 hpy hnot h
          · exact absurd h (by simp)

/-- C8: on the concrete tree with packages `a` and `a.b` and files
`a/data.json`, `a/b/img.png`, `a/c/extra.txt` (with `a.c` undiscovered),
`find_packages` records `data.json` under `a`, `img.png` under `a.b`, and
reassigns `extra.txt` under `a` as `c/extra.txt`. -/
theorem C8_classification :
    ∃ r, find_packages listingC8 = .ok r ∧
      r.packages = ["a", "a.b"] ∧
      "data.json" ∈ setMapGet r.resources "a" ∧
      "img.png" ∈ setMapGet r.resources "a.b" ∧
      "c/extra.txt" ∈ setMapGet r.resources "a" :=
  ⟨⟨["a", "a.b"], [],
    [("a", ["data.json", "c/extra.txt"]), ("a.b", ["img.png"])], []⟩,
   by decide, by decide, by decide, by decide, by decide⟩

/-- C1 (counterexample): on the concrete tree with package `a` and orphan
source file `a/c/hello.py`, `find_packages` emits the warning and does not
raise, but — the warning branch of the source falls through into resource
classification — the orphan file is then recorded in package `a`'s resource
set as `c/hello.py`, contradicting the claimed absence from the returned
resources. -/
theorem C1_counterexample :
    ∃ r, find_packages listingC1 = .ok r ∧
      orphanWarning "a/c/hello.py" ∈ r.warnings ∧
      "a" ∈ r.packages ∧
      "c/hello.py" ∈ setMapGet r.resources "a" :=
  ⟨⟨["a"], [], [("a", ["c/hello.py"])], [orphanWarning "a/c/hello.py"]⟩,
   by decide, by decide, by decide, by decide⟩

/-- C1 (amended): for every materialized tree, a `.py` file whose module is
not a discovered package produces a warning, `find_packages` returns
normally, and the module is absent from the packages set; but the file does
not stay out of the resources — it falls through to resource classification
and is recorded under `nearest_subpackage(module, packages)` (package-relative
when the module is a strict descendant). -/
theorem C1_orphan_amended :
    ∀ (L : Listing) (module filename rf : String) (c : PyModule),
      (module, filename, rf, c) ∈ iterFilesC L →
      pyEndswith filename ".py" = true →
      module ∉ (findPackagesPass1 (iterFilesC L)).1 →
      ∃ r, find_packages L = .ok r ∧
        orphanWarning rf ∈ r.warnings ∧
        module ∉ r.packages ∧
        (if nearest_subpackage module r.packages = module then filename
         else pass2RelFile module (nearest_subpackage module r.packages) filename)
          ∈ setMapGet r.resources (nearest_subpackage module r.packages) := by
  intro L module filename rf c hmem hpy hnot
  obtain ⟨r, hr, hpk, hp2⟩ := find_packages_ok L
  have hit := findPackagesPass2_hit _ _ _ _ _ _ _ _ _ hmem hpy hnot hp2
  refine ⟨r, hr, hit.1, ?_, ?_⟩
  · rw [hpk]; exact hnot
  · rw [hpk]; exact hit.2

/-- Witness for the amended C1 on the concrete orphan `a/c/hello.py`. -/
theorem C1_orphan_amended_witness :
    ∃ r, find_packages listingC1 = .ok r ∧
      orphanWarning "a/c/hello.py" ∈ r.warnings ∧
      "a.c" ∉ r.packages ∧
      (if nearest_subpackage "a.c" r.packages = "a.c" then "hello.py"
       else pass2RelFile "a.c" (nearest_subpackage "a.c" r.packages) "hello.py")
        ∈ setMapGet r.resources (nearest_subpackage "a.c" r.packages) :=
  C1_orphan_amended listingC1 "a.c" "hello.py" "a/c/hello.py" []
    (List.mem_cons_of_mem _ (List.mem_cons_self _ _)) (by decide) (by decide)

/-! Stack discipline of `resolve`: every normally-returning call restores the
provider stack, and the `assert providers[-1] == key` never fails. -/

theorem resLoop_ok_stack (root : Nat) (recur : Nat → List Nat → RSt → Except RErr RSt)
    (hrec : ∀ d ps s s2, recur d ps s = .ok s2 → s2.1 = s.1) (prv : String) :
    ∀ (deps parents : List Nat) (st st2 : RSt),
      resLoop root recur prv deps parents st = .ok st2 → st2.1 = st.1 := by
  intro deps
  induction deps with
  | nil =>
    intro parents st st2 h
    rw [resLoop] at h
    injection h with h
    subst h
    rfl
  | cons dep rest ih =>
    intro parents st st2 h
    rw [resLoop] at h
    split at h
    · exact absurd h (by simp)
    · split at h
      · exact absurd h (by simp)
      · rename_i st3 hr3
        rw [ih _ _ _ h, hrec _ _ _ _ hr3]

theorem prvLoop_ok_stack (g : DepGraph) (root : Nat)
    (recur : Nat → List Nat → RSt → Except RErr RSt)
    (hrec : ∀ d ps s s2, recur d ps s = .ok s2 → s2.1 = s.1) (d : Nat) :
    ∀ (prvs : List String) (parents : List Nat) (st st2 : RSt),
      prvLoop g root recur d prvs parents st = .ok st2 → st2.1 = st.1 := by
  intro prvs
  induction prvs with
  | nil =>
    intro parents st st2 h
    rw [prvLoop] at h
    injection h with h
    subst h
    rfl
  | cons prv rest ih =>
    intro parents st st2 h
    rw [prvLoop] at h
    split at h
    · exact absurd h (by simp)
    · rename_i st3 hr3
      rw [ih _ _ _ h, resLoop_ok_stack root recur hrec prv _ _ _ _ hr3]

theorem depsLoop_ok_stack (g : DepGraph) (root : Nat)
    (recur : Nat → List Nat → RSt → Except RErr RSt)
    (hrec : ∀ d ps s s2, recur d ps s = .ok s2 → s2.1 = s.1) :
    ∀ (ds parents : List Nat) (st st2 : RSt),
      depsLoop g root recur ds parents st = .ok st2 → st2.1 = st.1 := by
  intro ds
  induction ds with
  | nil =>
    intro parents st st2 h
    rw [depsLoop] at h
    injection h with h
    subst h
    rfl
  | cons d rest ih =>
    intro parents st st2 h
    rw [depsLoop] at h
    split at h
    · exact absurd h (by simp)
    · rename_i st3 hr3
      rw [ih _ _ _ h, prvLoop_ok_stack g root recur hrec d _ _ _ _ hr3]

theorem resolveT_ok_stack (g : DepGraph) (root : Nat) :
    ∀ (fuel t : Nat) (parents : List Nat) (st st2 : RSt),
      resolveT g root fuel t parents st = .ok st2 → st2.1 = st.1 := by
  intro fuel
  induction fuel with
  | zero =>
    intro t parents st st2 h
    rw [resolveT] at h
    exact absurd h (by simp)
  | succ fuel ih =>
    intro t parents st st2 h
    rw [resolveT] at h
    split at h
    · exact absurd h (by simp)
    · rename_i st3 hdl
      have hst3 : st3.1 = st.1 ++ (providerKey g t).toList :=
        depsLoop_ok_stack g root _ (fun d ps s s2 hh => ih d ps s s2 hh) _ _ _ _ hdl
      split at h
      · rename_i hpk
        injection h with h
        subst h
        rw [hst3, hpk]
        simp
      · rename_i k hpk
        rw [hpk] at hst3
        split at h
        · rename_i k2 hlast
          rw [hst3, Option.toList_some, List.getLast?_concat] at hlast
          injection hlast with hlast
          subst hlast
          rw [if_pos rfl] at h
          injection h with h
          subst h
          rw [hst3]
          simp [List.dropLast_concat]
        · rename_i hlast
          rw [hst3, Option.toList_some, List.getLast?_concat] at hlast
          exact absurd hlast (by simp)

/-- Errors of `resolve` are never the pop assertion nor an attribute error:
the loops only produce cycle errors or propagate, and the pop always sees the
key it pushed. -/
theorem resLoop_err_shape (root : Nat) (recur : Nat → List Nat → RSt → Except RErr RSt)
    (hrec : ∀ d ps s e, recur d ps s = .error e → e ≠ .assertFail ∧ e ≠ .attrErr)
    (prv : String) :
    ∀ (deps parents : List Nat) (st : RSt) (e : RErr),
      resLoop root recur prv deps parents st = .error e → e ≠ .assertFail ∧ e ≠ .attrErr := by
  intro deps
  induction deps with
  | nil =>
    intro parents st e h
    rw [resLoop] at h
    exact absurd h (by simp)
  | cons dep rest ih =>
    intro parents st e h
    rw [resLoop] at h
    split at h
    · injection h with h
      subst h
      exact ⟨by simp, by simp⟩
    · split at h
      · rename_i e2 hr2
        injection h with h
        subst h
        exact hrec _ _ _ _ hr2
      · exact ih _ _ _ h

theorem prvLoop_err_shape (g : DepGraph) (root : Nat)
    (recur : Nat → List Nat → RSt → Except RErr RSt)
    (hrec : ∀ d ps s e, recur d ps s = .error e → e ≠ .assertFail ∧ e ≠ .attrErr)
    (d : Nat) :
    ∀ (prvs : List String) (parents : List Nat) (st : RSt) (e : RErr),
      prvLoop g root recur d prvs parents st = .error e → e ≠ .assertFail ∧ e ≠ .attrErr := by
  intro prvs
  induction prvs with
  | nil =>
    intro parents st e h
    rw [prvLoop] at h
    exact absurd h (by simp)
  | cons prv rest ih =>
    intro parents st e h
    rw [prvLoop] at h
    split at h
    · rename_i e2 hr2
      injection h with h
      subst h
      exact resLoop_err_shape root recur hrec prv _ _ _ _ hr2
    · exact ih _ _ _ h

theorem depsLoop_err_shape (g : DepGraph) (root : Nat)
    (recur : Nat → List Nat → RSt → Except RErr RSt)
    (hrec : ∀ d ps s e, recur d ps s = .error e → e ≠ .assertFail ∧ e ≠ .attrErr) :
    ∀ (ds parents : List Nat) (st : RSt) (e : RErr),
      depsLoop g root recur ds parents st = .error e → e ≠ .assertFail ∧ e ≠ .attrErr := by
  intro ds
  induction ds with
  | nil =>
    intro parents st e h
    rw [depsLoop] at h
    exact absurd h (by simp)
  | cons d rest ih =>
    intro parents st e h
    rw [depsLoop] at h
    split at h
    · rename_i e2 hr2
      injection h with h
      subst h
      exact prvLoop_err_shape g root recur hrec d _ _ _ _ hr2
    · exact ih _ _ _ h

theorem resolveT_err_shape (g : DepGraph) (root : Nat) :
    ∀ (fuel t : Nat) (parents : List Nat) (st : RSt) (e : RErr),
      resolveT g root fuel t parents st = .error e → e ≠ .assertFail ∧ e ≠ .attrErr := by
  intro fuel
  induction fuel with
  | zero =>
    intro t parents st e h
    rw [resolveT] at h
    injection h with h
    subst h
    exact ⟨by simp, by simp⟩
  | succ fuel ih =>
    intro t parents st e h
    rw [resolveT] at h
    split at h
    · rename_i e2 hdl
      injection h with h
      subst h
      exact depsLoop_err_shape g root _ (fun d ps s e2 hh => ih d ps s e2 hh) _ _ _ _ hdl
    · rename_i st3 hdl
      have hst3 : st3.1 = st.1 ++ (providerKey g t).toList :=
        depsLoop_ok_stack g root _
          (fun d ps s s2 hh => resolveT_ok_stack g root fuel d ps s s2 hh) _ _ _ _ hdl
      split at h
      · exact absurd h (by simp)
      · rename_i k hpk
        rw [hpk] at hst3
        split at h
        · rename_i k2 hlast
          rw [hst3, Option.toList_some, List.getLast?_concat] at hlast
          injection hlast with hlast
          subst hlast
          rw [if_pos rfl] at h
          exact absurd h (by simp)
        · rename_i hlast
          rw [hst3, Option.toList_some, List.getLast?_concat] at hlast
          exact absurd hlast (by simp)

/-! Lookup facts for `DepMap`, mirroring the `SetMap` ones. -/

theorem depMapGet_cons_pos (k1 : String) (v : List Nat) (rest : DepMap) (k : String)
    (h : k1 = k) : depMapGet ((k1, v) :: rest) k = v := by
  rw [depMapGet, List.find?_cons_of_pos]
  · simp [h]

theorem depMapGet_cons_neg (k1 : String) (v : List Nat) (rest : DepMap) (k : String)
    (h : k1 ≠ k) : depMapGet ((k1, v) :: rest) k = depMapGet rest k := by
  rw [depMapGet, List.find?_cons_of_neg, depMapGet]
  simp [h]

theorem depMapAdd_get_self (m : DepMap) (k : String) (v : Nat) :
    v ∈ depMapGet (depMapAdd m k v) k := by
  induction m with
  | nil => simp [depMapAdd, depMapGet, List.find?]
  | cons e rest ih =>
    obtain ⟨ek, ev⟩ := e
    rw [depMapAdd]
    dsimp only
    split
    · rename_i he
      rw [depMapGet_cons_pos _ _ _ _ he]
      split
      · assumption
      · simp
    · rename_i he
      rw [depMapGet_cons_neg _ _ _ _ he]
      exact ih

theorem depMapAdd_get_mono (m : DepMap) (k2 : String) (v2 : Nat) (k : String) (x : Nat)
    (h : x ∈ depMapGet m k) : x ∈ depMapGet (depMapAdd m k2 v2) k := by
  induction m with
  | nil => simp [depMapGet, List.find?] at h
  | cons e rest ih =>
    obtain ⟨ek, ev⟩ := e
    rw [depMapAdd]
    dsimp only
    split
    · rename_i he
      by_cases hk : ek = k
      · rw [depMapGet_cons_pos _ _ _ _ hk] at h
        rw [depMapGet_cons_pos _ _ _ _ hk]
        split
        · exact h
        · exact List.mem_append_left _ h
      · rw [depMapGet_cons_neg _ _ _ _ hk] at h
        rw [depMapGet_cons_neg _ _ _ _ hk]
        exact h
    · rename_i he
      by_cases hk : ek = k
      · rw [depMapGet_cons_pos _ _ _ _ hk] at h
        rw [depMapGet_cons_pos _ _ _ _ hk]
        exact h
      · rw [depMapGet_cons_neg _ _ _ _ hk] at h
        rw [depMapGet_cons_neg _ _ _ _ hk]
        exact ih h

/-! The depmap only grows through `resolve`. -/

theorem resLoop_dm_mono (root : Nat) (recur : Nat → List Nat → RSt → Except RErr RSt)
    (hrec : ∀ d ps s s2, recur d ps s = .ok s2 →
      ∀ k x, x ∈ depMapGet s.2 k → x ∈ depMapGet s2.2 k) (prv : String) :
    ∀ (deps parents : List Nat) (st st2 : RSt),
      resLoop root recur prv deps parents st = .ok st2 →
      ∀ k x, x ∈ depMapGet st.2 k → x ∈ depMapGet st2.2 k := by
  intro deps
  induction deps with
  | nil =>
    intro parents st st2 h
    rw [resLoop] at h
    injection h with h
    subst h
    exact fun k x hx => hx
  | cons dep rest ih =>
    intro parents st st2 h
    rw [resLoop] at h
    split at h
    · exact absurd h (by simp)
    · split at h
      · exact absurd h (by simp)
      · rename_i st3 hr3
        intro k x hx
        exact ih _ _ _ h _ _ (hrec _ _ _ _ hr3 _ _ (depMapAdd_get_mono _ _ _ _ _ hx))

theorem prvLoop_dm_mono (g : DepGraph) (root : Nat)
    (recur : Nat → List Nat → RSt → Except RErr RSt)
    (hrec : ∀ d ps s s2, recur d ps s = .ok s2 →
      ∀ k x, x ∈ depMapGet s.2 k → x ∈ depMapGet s2.2 k) (d : Nat) :
    ∀ (prvs : List String) (parents : List Nat) (st st2 : RSt),
      prvLoop g root recur d prvs parents st = .ok st2 →
      ∀ k x, x ∈ depMapGet st.2 k → x ∈ depMapGet st2.2 k := by
  intro prvs
  induction prvs with
  | nil =>
    intro parents st st2 h
    rw [prvLoop] at h
    injection h with h
    subst h
    exact fun k x hx => hx
  | cons prv rest ih =>
    intro parents st st2 h
    rw [prvLoop] at h
    split at h
    · exact absurd h (by simp)
    · rename_i st3 hr3
      intro k x hx
      exact ih _ _ _ h _ _ (resLoop_dm_mono root recur hrec prv _ _ _ _ hr3 _ _ hx)

theorem depsLoop_dm_mono (g : DepGraph) (root : Nat)
    (recur : Nat → List Nat → RSt → Except RErr RSt)
    (hrec : ∀ d ps s s2, recur d ps s = .ok s2 →
      ∀ k x, x ∈ depMapGet s.2 k → x ∈ depMapGet s2.2 k) :
    ∀ (ds parents : List Nat) (st st2 : RSt),
      depsLoop g root recur ds parents st = .ok st2 →
      ∀ k x, x ∈ depMapGet st.2 k → x ∈ depMapGet st2.2 k := by
  intro ds
  induction ds with
  | nil =>
    intro parents st st2 h
    rw [depsLoop] at h
    injection h with h
    subst h
    exact fun k x hx => hx
  | cons d rest ih =>
    intro parents st st2 h
    rw [depsLoop] at h
    split at h
    · exact absurd h (by simp)
    · rename_i st3 hr3
      intro k x hx
      exact ih _ _ _ h _ _ (prvLoop_dm_mono g root recur hrec d _ _ _ _ hr3 _ _ hx)

theorem resolveT_dm_mono (g : DepGraph) (root : Nat) :
    ∀ (fuel t : Nat) (parents : List Nat) (st st2 : RSt),
      resolveT g root fuel t parents st = .ok st2 →
      ∀ k x, x ∈ depMapGet st.2 k → x ∈ depMapGet st2.2 k := by
  intro fuel
  induction fuel with
  | zero =>
    intro t parents st st2 h
    rw [resolveT] at h
    exact absurd h (by simp)
  | succ fuel ih =>
    intro t parents st st2 h
    rw [resolveT] at h
    split at h
    · exact absurd h (by simp)
    · rename_i st3 hdl
      have hmono := depsLoop_dm_mono g root _ (fun d ps s s2 hh => ih d ps s s2 hh) _ _ _ _ hdl
      split at h
      · injection h with h
        subst h
        exact hmono
      · split at h
        · rename_i k2 hlast
          split at h
          · injection h with h
            subst h
            exact hmono
          · exact absurd h (by simp)
        · exact absurd h (by simp)

/-! Completeness of the closure recording: every node reachable below `t` is
recorded, in the final depmap, under every key on the provider stack at the
time `t` is resolved (including the key `t` itself pushes). -/

theorem stepC_iff (g : DepGraph) (a b : Nat) :
    StepC g a b ↔ ∃ d ∈ combinedRefs g a, b ∈ g.resolveRef d := by
  rw [StepC, stepB, List.any_eq_true]
  simp

theorem resLoop_complete (g : DepGraph) (root : Nat)
    (recur : Nat → List Nat → RSt → Except RErr RSt)
    (hrecStack : ∀ d ps s s2, recur d ps s = .ok s2 → s2.1 = s.1)
    (hrecMono : ∀ d ps s s2, recur d ps s = .ok s2 →
      ∀ k x, x ∈ depMapGet s.2 k → x ∈ depMapGet s2.2 k)
    (hrecComp : ∀ d ps s s2, recur d ps s = .ok s2 →
      ∀ prv ∈ s.1, ∀ x, ReachPlus g d x → x ∈ depMapGet s2.2 prv)
    (prv : String) :
    ∀ (deps parents : List Nat) (st st2 : RSt),
      resLoop root recur prv deps parents st = .ok st2 →
      prv ∈ st.1 →
      ∀ dep ∈ deps, ∀ x, (x = dep ∨ ReachPlus g dep x) → x ∈ depMapGet st2.2 prv := by
  intro deps
  induction deps with
  | nil =>
    intro parents st st2 h hprv dep hdep
    exact absurd hdep (List.not_mem_nil _)
  | cons dep0 rest ih =>
    intro parents st st2 h hprv dep hdep x hx
    rw [resLoop] at h
    split at h
    · exact absurd h (by simp)
    · split at h
      · exact absurd h (by simp)
      · rename_i st3 hr3
        have hmono3 := resLoop_dm_mono root recur hrecMono prv _ _ _ _ h
        rcases List.mem_cons.1 hdep with rfl | hdep2
        · rcases hx with rfl | hreach
          · exact hmono3 _ _ (hrecMono _ _ _ _ hr3 _ _ (depMapAdd_get_self _ _ _))
          · exact hmono3 _ _ (hrecComp _ _ _ _ hr3 prv hprv _ hreach)
        · have hst3 : st3.1 = st.1 :=
            hrecStack dep0 (dep0 :: parents) (st.1, depMapAdd st.2 prv dep0) st3 hr3
          exact ih _ _ _ h (hst3 ▸ hprv) _ hdep2 _ hx

theorem prvLoop_complete (g : DepGraph) (root : Nat)
    (recur : Nat → List Nat → RSt → Except RErr RSt)
    (hrecStack : ∀ d ps s s2, recur d ps s = .ok s2 → s2.1 = s.1)
    (hrecMono : ∀ d ps s s2, recur d ps s = .ok s2 →
      ∀ k x, x ∈ depMapGet s.2 k → x ∈ depMapGet s2.2 k)
    (hrecComp : ∀ d ps s s2, recur d ps s = .ok s2 →
      ∀ prv ∈ s.1, ∀ x, ReachPlus g d x → x ∈ depMapGet s2.2 prv)
    (d : Nat) :
    ∀ (prvs : List String) (parents : List Nat) (st st2 : RSt),
      prvLoop g root recur d prvs parents st = .ok st2 →
      ∀ prv ∈ prvs, prv ∈ st.1 →
      ∀ dep ∈ g.resolveRef d, ∀ x, (x = dep ∨ ReachPlus g dep x) →
        x ∈ depMapGet st2.2 prv := by
  intro prvs
  induction prvs with
  | nil =>
    intro parents st st2 h prv hprv
    exact absurd hprv (List.not_mem_nil _)
  | cons prv0 rest ih =>
    intro parents st st2 h prv hprv hpmem dep hdep x hx
    rw [prvLoop] at h
    split at h
    · exact absurd h (by simp)
    · rename_i st3 hr3
      rcases List.mem_cons.1 hprv with rfl | hprv2
      · exact prvLoop_dm_mono g root recur hrecMono d _ _ _ _ h _ _
          (resLoop_complete g root recur hrecStack hrecMono hrecComp prv _ _ _ _ hr3
            hpmem _ hdep _ hx)
      · have hst3 : st3.1 = st.1 := resLoop_ok_stack root recur hrecStack prv0 _ _ _ _ hr3
        exact ih _ _ _ h _ hprv2 (hst3 ▸ hpmem) _ hdep _ hx

theorem depsLoop_complete (g : DepGraph) (root : Nat)
    (recur : Nat → List Nat → RSt → Except RErr RSt)
    (hrecStack : ∀ d ps s s2, recur d ps s = .ok s2 → s2.1 = s.1)
    (hrecMono : ∀ d ps s s2, recur d ps s = .ok s2 →
      ∀ k x, x ∈ depMapGet s.2 k → x ∈ depMapGet s2.2 k)
    (hrecComp : ∀ d ps s s2, recur d ps s = .ok s2 →
      ∀ prv ∈ s.1, ∀ x, ReachPlus g d x → x ∈ depMapGet s2.2 prv) :
    ∀ (ds parents : List Nat) (st st2 : RSt),
      depsLoop g root recur ds parents st = .ok st2 →
      ∀ prv ∈ st.1, ∀ d ∈ ds, ∀ dep ∈ g.resolveRef d, ∀ x,
        (x = dep ∨ ReachPlus g dep x) → x ∈ depMapGet st2.2 prv := by
  intro ds
  induction ds with
  | nil =>
    intro parents st st2 h prv hprv d hd
    exact absurd hd (List.not_mem_nil _)
  | cons d0 rest ih =>
    intro parents st st2 h prv hprv d hd dep hdep x hx
    rw [depsLoop] at h
    split at h
    · exact absurd h (by simp)
    · rename_i st3 hr3
      rcases List.mem_cons.1 hd with rfl | hd2
      · exact depsLoop_dm_mono g root recur hrecMono _ _ _ _ h _ _
          (prvLoop_complete g root recur hrecStack hrecMono hrecComp d _ _ _ _ hr3
            prv hprv hprv _ hdep _ hx)
      · have hst3 : st3.1 = st.1 :=
          prvLoop_ok_stack g root recur hrecStack d0 _ _ _ _ hr3
        exact ih _ _ _ h _ (hst3 ▸ hprv) _ hd2 _ hdep _ hx

theorem resolveT_complete (g : DepGraph) (root : Nat) :
    ∀ (fuel t : Nat) (parents : List Nat) (st st2 : RSt),
      resolveT g root fuel t parents st = .ok st2 →
      ∀ prv ∈ st.1 ++ (providerKey g t).toList,
      ∀ x, ReachPlus g t x → x ∈ depMapGet st2.2 prv := by
  intro fuel
  induction fuel with
  | zero =>
    intro t parents st st2 h
    rw [resolveT] at h
    exact absurd h (by simp)
  | succ fuel ih =>
    intro t parents st st2 h prv hprv x hx
    rw [resolveT] at h
    split at h
    · exact absurd h (by simp)
    · rename_i st3 hdl
      obtain ⟨y, hstep, hrest⟩ := transGen_head_decomp hx
      obtain ⟨d, hd, hy⟩ := (stepC_iff g t y).1 hstep
      have hx2 : x = y ∨ ReachPlus g y x := by
        rcases hrest with rfl | ht
        · exact Or.inl rfl
        · exact Or.inr ht
      have hxin : x ∈ depMapGet st3.2 prv :=
        depsLoop_complete g root _
          (fun d2 ps s s2 hh => resolveT_ok_stack g root fuel d2 ps s s2 hh)
          (fun d2 ps s s2 hh => resolveT_dm_mono g root fuel d2 ps s s2 hh)
          (fun d2 ps s s2 hh prv2 hprv2 x2 hx3 =>
            ih d2 ps s s2 hh prv2 (List.mem_append_left _ hprv2) x2 hx3)
          _ _ _ _ hdl prv hprv _ hd _ hy _ hx2
      split at h
      · injection h with h
        subst h
        exact hxin
      · split at h
        · split at h
          · injection h with h
            subst h
            exact hxin
          · exact absurd h (by simp)
        · exact absurd h (by simp)

/-! Acyclicity on success: when `resolve` returns normally with a non-empty
provider stack, no node reachable below the target lies on a cycle (and none
recurs into the active path). -/

theorem resLoop_acyc (g : DepGraph) (root : Nat)
    (recur : Nat → List Nat → RSt → Except RErr RSt)
    (hrecStack : ∀ d ps s s2, recur d ps s = .ok s2 → s2.1 = s.1)
    (hrecAcyc : ∀ d ps s s2, recur d ps s = .ok s2 → s.1 ≠ [] →
      ∀ x, ReachPlus g d x → x ∉ ps ∧ ¬ReachPlus g x x) (prv : String) :
    ∀ (deps parents : List Nat) (st st2 : RSt),
      resLoop root recur prv deps parents st = .ok st2 → st.1 ≠ [] →
      ∀ dep ∈ deps, dep ∉ parents ∧
        ∀ x, ReachPlus g dep x → x ∉ (dep :: parents) ∧ ¬ReachPlus g x x := by
  intro deps
  induction deps with
  | nil =>
    intro parents st st2 h hne dep hdep
    exact absurd hdep (List.not_mem_nil _)
  | cons dep0 rest ih =>
    intro parents st st2 h hne dep hdep
    rw [resLoop] at h
    split at h
    · exact absurd h (by simp)
    · rename_i hmem0
      split at h
      · exact absurd h (by simp)
      · rename_i st3 hr3
        rcases List.mem_cons.1 hdep with rfl | hdep2
        · exact ⟨hmem0, fun x hx => hrecAcyc _ _ _ _ hr3 hne x hx⟩
        · have hst3 : st3.1 = st.1 :=
            hrecStack dep0 (dep0 :: parents) (st.1, depMapAdd st.2 prv dep0) st3 hr3
          exact ih _ _ _ h (by rw [hst3]; exact hne) _ hdep2

theorem prvLoop_acyc (g : DepGraph) (root : Nat)
    (recur : Nat → List Nat → RSt → Except RErr RSt)
    (hrecStack : ∀ d ps s s2, recur d ps s = .ok s2 → s2.1 = s.1)
    (hrecAcyc : ∀ d ps s s2, recur d ps s = .ok s2 → s.1 ≠ [] →
      ∀ x, ReachPlus g d x → x ∉ ps ∧ ¬ReachPlus g x x) (d : Nat) :
    ∀ (prvs : List String) (parents : List Nat) (st st2 : RSt),
      prvLoop g root recur d prvs parents st = .ok st2 → st.1 ≠ [] → prvs ≠ [] →
      ∀ dep ∈ g.resolveRef d, dep ∉ parents ∧
        ∀ x, ReachPlus g dep x → x ∉ (dep :: parents) ∧ ¬ReachPlus g x x := by
  intro prvs
  match prvs with
  | [] => intro parents st st2 h hne hpne; exact absurd rfl hpne
  | prv0 :: rest =>
    intro parents st st2 h hne _
    rw [prvLoop] at h
    split at h
    · exact absurd h (by simp)
    · rename_i st3 hr3
      exact resLoop_acyc g root recur hrecStack hrecAcyc prv0 _ _ _ _ hr3 hne

theorem depsLoop_acyc (g : DepGraph) (root : Nat)
    (recur : Nat → List Nat → RSt → Except RErr RSt)
    (hrecStack : ∀ d ps s s2, recur d ps s = .ok s2 → s2.1 = s.1)
    (hrecAcyc : ∀ d ps s s2, recur d ps s = .ok s2 → s.1 ≠ [] →
      ∀ x, ReachPlus g d x → x ∉ ps ∧ ¬ReachPlus g x x) :
    ∀ (ds parents : List Nat) (st st2 : RSt),
      depsLoop g root recur ds parents st = .ok st2 → st.1 ≠ [] →
      ∀ d ∈ ds, ∀ dep ∈ g.resolveRef d, dep ∉ parents ∧
        ∀ x, ReachPlus g dep x → x ∉ (dep :: parents) ∧ ¬ReachPlus g x x := by
  intro ds
  induction ds with
  | nil =>
    intro parents st st2 h hne d hd
    exact absurd hd (List.not_mem_nil _)
  | cons d0 rest ih =>
    intro parents st st2 h hne d hd
    rw [depsLoop] at h
    split at h
    · exact absurd h (by simp)
    · rename_i st3 hr3
      rcases List.mem_cons.1 hd with rfl | hd2
      · exact prvLoop_acyc g root recur hrecStack hrecAcyc d _ _ _ _ hr3 hne hne
      · have hst3 : st3.1 = st.1 :=
          prvLoop_ok_stack g root recur hrecStack d0 _ _ _ _ hr3
        exact ih _ _ _ h (by rw [hst3]; exact hne) _ hd2

theorem resolveT_acyc (g : DepGraph) (root : Nat) :
    ∀ (fuel t : Nat) (parents : List Nat) (st st2 : RSt),
      resolveT g root fuel t parents st = .ok st2 →
      st.1 ++ (providerKey g t).toList ≠ [] →
      ∀ x, ReachPlus g t x → x ∉ parents ∧ ¬ReachPlus g x x := by
  intro fuel
  induction fuel with
  | zero =>
    intro t parents st st2 h
    rw [resolveT] at h
    exact absurd h (by simp)
  | succ fuel ih =>
    intro t parents st st2 h hne x hx
    rw [resolveT] at h
    have hrecStack : ∀ (d : Nat) (ps : List Nat) (s s2 : RSt),
        resolveT g root fuel d ps s = .ok s2 → s2.1 = s.1 :=
      fun d ps s s2 hh => resolveT_ok_stack g root fuel d ps s s2 hh
    have hrecAcyc : ∀ (d : Nat) (ps : List Nat) (s s2 : RSt),
        resolveT g root fuel d ps s = .ok s2 → s.1 ≠ [] →
        ∀ x2, ReachPlus g d x2 → x2 ∉ ps ∧ ¬ReachPlus g x2 x2 := by
      intro d ps s s2 hh hsne x2 hx2
      refine ih d ps s s2 hh ?_ x2 hx2
      intro hcontra
      exact hsne (List.append_eq_nil.1 hcontra).1
    split at h
    · exact absurd h (by simp)
    · rename_i st3 hdl
      obtain ⟨y, hstep, hrest⟩ := transGen_head_decomp hx
      obtain ⟨d, hd, hy⟩ := (stepC_iff g t y).1 hstep
      have hyfact := depsLoop_acyc g root _ hrecStack hrecAcyc _ _ _ _ hdl hne _ hd _ hy
      rcases hrest with heq | ht
      · constructor
        · rw [← heq]; exact hyfact.1
        · intro hxx
          rw [← heq] at hxx
          exact (hyfact.2 _ hxx).1 (List.mem_cons_self _ _)
      · have h2 := hyfact.2 x ht
        exact ⟨fun hmem => h2.1 (List.mem_cons_of_mem _ hmem), h2.2⟩

/-! The cycle error: it always carries the root, and a node that lies on an
actual cycle of the step relation (the revisited node is on the active path
from the root, so it reaches itself). -/

theorem resLoop_cycleErr (g : DepGraph) (root t : Nat)
    (recur : Nat → List Nat → RSt → Except RErr RSt)
    (hrecE : ∀ d ps s r dd, (∀ p ∈ ps, ReachStar g p d) →
      recur d ps s = .error (.cycle r dd) → r = root ∧ ReachPlus g dd dd)
    (prv : String) :
    ∀ (deps parents : List Nat) (st : RSt) (r dd : Nat),
      (∀ p ∈ parents, ReachStar g p t) →
      (∀ dep ∈ deps, StepC g t dep) →
      resLoop root recur prv deps parents st = .error (.cycle r dd) →
      r = root ∧ ReachPlus g dd dd := by
  intro deps
  induction deps with
  | nil =>
    intro parents st r dd hpar hsteps h
    rw [resLoop] at h
    exact absurd h (by simp)
  | cons dep0 rest ih =>
    intro parents st r dd hpar hsteps h
    rw [resLoop] at h
    split at h
    · rename_i hmem0
      injection h with h
      injection h with h1 h2
      subst h1
      subst h2
      refine ⟨rfl, ?_⟩
      exact Relation.TransGen.tail' (hpar _ hmem0) (hsteps _ (List.mem_cons_self _ _))
    · rename_i hmem0
      split at h
      · rename_i e2 hr2
        injection h with h
        subst h
        refine hrecE _ _ _ _ _ ?_ hr2
        intro p hp
        rcases List.mem_cons.1 hp with rfl | hp2
        · exact Relation.ReflTransGen.refl
        · exact Relation.ReflTransGen.tail (hpar _ hp2)
            (hsteps _ (List.mem_cons_self _ _))
      · exact ih _ _ _ _ hpar (fun dep hdep => hsteps _ (List.mem_cons_of_mem _ hdep)) h

theorem prvLoop_cycleErr (g : DepGraph) (root t : Nat)
    (recur : Nat → List Nat → RSt → Except RErr RSt)
    (hrecE : ∀ d ps s r dd, (∀ p ∈ ps, ReachStar g p d) →
      recur d ps s = .error (.cycle r dd) → r = root ∧ ReachPlus g dd dd)
    (d : Nat) :
    ∀ (prvs : List String) (parents : List Nat) (st : RSt) (r dd : Nat),
      (∀ p ∈ parents, ReachStar g p t) →
      (∀ dep ∈ g.resolveRef d, StepC g t dep) →
      prvLoop g root recur d prvs parents st = .error (.cycle r dd) →
      r = root ∧ ReachPlus g dd dd := by
  intro prvs
  induction prvs with
  | nil =>
    intro parents st r dd hpar hsteps h
    rw [prvLoop] at h
    exact absurd h (by simp)
  | cons prv0 rest ih =>
    intro parents st r dd hpar hsteps h
    rw [prvLoop] at h
    split at h
    · rename_i e2 hr2
      injection h with h
      subst h
      exact resLoop_cycleErr g root t recur hrecE prv0 _ _ _ _ _ hpar hsteps hr2
    · exact ih _ _ _ _ hpar hsteps h

theorem depsLoop_cycleErr (g : DepGraph) (root t : Nat)
    (recur : Nat → List Nat → RSt → Except RErr RSt)
    (hrecE : ∀ d ps s r dd, (∀ p ∈ ps, ReachStar g p d) →
      recur d ps s = .error (.cycle r dd) → r = root ∧ ReachPlus g dd dd) :
    ∀ (ds parents : List Nat) (st : RSt) (r dd : Nat),
      (∀ p ∈ parents, ReachStar g p t) →
      (∀ d ∈ ds, ∀ dep ∈ g.resolveRef d, StepC g t dep) →
      depsLoop g root recur ds parents st = .error (.cycle r dd) →
      r = root ∧ ReachPlus g dd dd := by
  intro ds
  induction ds with
  | nil =>
    intro parents st r dd hpar hsteps h
    rw [depsLoop] at h
    exact absurd h (by simp)
  | cons d0 rest ih =>
    intro parents st r dd hpar hsteps h
    rw [depsLoop] at h
    split at h
    · rename_i e2 hr2
      injection h with h
      subst h
      exact prvLoop_cycleErr g root t recur hrecE d0 _ _ _ _ _ hpar
        (hsteps _ (List.mem_cons_self _ _)) hr2
    · exact ih _ _ _ _ hpar (fun d2 hd2 => hsteps _ (List.mem_cons_of_mem _ hd2)) h

theorem resolveT_cycleErr (g : DepGraph) (root : Nat) :
    ∀ (fuel t : Nat) (parents : List Nat) (st : RSt) (r dd : Nat),
      (∀ p ∈ parents, ReachStar g p t) →
      resolveT g root fuel t parents st = .error (.cycle r dd) →
      r = root ∧ ReachPlus g dd dd := by
  intro fuel
  induction fuel with
  | zero =>
    intro t parents st r dd hpar h
    rw [resolveT] at h
    injection h with h
    exact absurd h (by simp)
  | succ fuel ih =>
    intro t parents st r dd hpar h
    rw [resolveT] at h
    split at h
    · rename_i e2 hdl
      injection h with h
      subst h
      refine depsLoop_cycleErr g root t _
        (fun d ps s r2 dd2 hps hh => ih d ps s r2 dd2 hps hh) _ _ _ _ _ hpar ?_ hdl
      intro d hd dep hdep
      exact (stepC_iff g t dep).2 ⟨d, hd, hdep⟩
    · rename_i st3 hdl
      split at h
      · exact absurd h (by simp)
      · split at h
        · rename_i k2 hlast
          split at h
          · exact absurd h (by simp)
          · injection h with h
            exact absurd h (by simp)
        · injection h with h
          exact absurd h (by simp)

/-! Fuel sufficiency: recursion depth is bounded by the growth of `parents`
within the node universe, so `g.n + 1` fuel never exhausts — the embedding's
fuel is an artifact, matching the source, whose recursion terminates on every
non-raising path for the same reason. -/

theorem nodup_bounded_length (l : List Nat) (n : Nat) (hnd : l.Nodup)
    (hb : ∀ p ∈ l, p < n) : l.length ≤ n := by
  have hcard : l.toFinset.card = l.length := List.toFinset_card_of_nodup hnd
  rw [← hcard]
  have hsub : l.toFinset ⊆ Finset.range n := by
    intro p hp
    rw [Finset.mem_range]
    exact hb p (List.mem_toFinset.1 hp)
  simpa using Finset.card_le_card hsub

theorem resLoop_noFuel (g : DepGraph) (root : Nat)
    (recur : Nat → List Nat → RSt → Except RErr RSt) (parents : List Nat)
    (hrecF : ∀ d ps s, ps.Nodup → (∀ p ∈ ps, p < g.n) →
      ps.length = parents.length + 1 → recur d ps s ≠ .error .fuelOut)
    (prv : String) :
    ∀ (deps : List Nat) (st : RSt),
      parents.Nodup → (∀ p ∈ parents, p < g.n) → (∀ dep ∈ deps, dep < g.n) →
      resLoop root recur prv deps parents st ≠ .error .fuelOut := by
  intro deps
  induction deps with
  | nil =>
    intro st hnd hb hdb h
    rw [resLoop] at h
    exact absurd h (by simp)
  | cons dep0 rest ih =>
    intro st hnd hb hdb h
    rw [resLoop] at h
    split at h
    · injection h with h
      exact absurd h (by simp)
    · rename_i hmem0
      split at h
      · rename_i e2 hr2
        injection h with h
        subst h
        have hnd2 : (dep0 :: parents).Nodup := by
          rw [List.nodup_cons]
          exact ⟨hmem0, hnd⟩
        have hb2 : ∀ p ∈ dep0 :: parents, p < g.n := by
          intro p hp
          rcases List.mem_cons.1 hp with rfl | hp2
          · exact hdb _ (List.mem_cons_self _ _)
          · exact hb _ hp2
        exact hrecF dep0 (dep0 :: parents) (st.1, depMapAdd st.2 prv dep0) hnd2 hb2
          (by simp) hr2
      · exact ih _ hnd hb (fun dep hdep => hdb _ (List.mem_cons_of_mem _ hdep)) h

theorem prvLoop_noFuel (g : DepGraph) (root : Nat)
    (recur : Nat → List Nat → RSt → Except RErr RSt) (parents : List Nat)
    (HB : ∀ r x, x ∈ g.resolveRef r → x < g.n)
    (hrecF : ∀ d ps s, ps.Nodup → (∀ p ∈ ps, p < g.n) →
      ps.length = parents.length + 1 → recur d ps s ≠ .error .fuelOut)
    (d : Nat) :
    ∀ (prvs : List String) (st : RSt),
      parents.Nodup → (∀ p ∈ parents, p < g.n) →
      prvLoop g root recur d prvs parents st ≠ .error .fuelOut := by
  intro prvs
  induction prvs with
  | nil =>
    intro st hnd hb h
    rw [prvLoop] at h
    exact absurd h (by simp)
  | cons prv0 rest ih =>
    intro st hnd hb h
    rw [prvLoop] at h
    split at h
    · rename_i e2 hr2
      injection h with h
      subst h
      exact resLoop_noFuel g root recur parents hrecF prv0 _ _ hnd hb
        (fun dep hdep => HB d dep hdep) hr2
    · exact ih _ hnd hb h

theorem depsLoop_noFuel (g : DepGraph) (root : Nat)
    (recur : Nat → List Nat → RSt → Except RErr RSt) (parents : List Nat)
    (HB : ∀ r x, x ∈ g.resolveRef r → x < g.n)
    (hrecF : ∀ d ps s, ps.Nodup → (∀ p ∈ ps, p < g.n) →
      ps.length = parents.length + 1 → recur d ps s ≠ .error .fuelOut) :
    ∀ (ds : List Nat) (st : RSt),
      parents.Nodup → (∀ p ∈ parents, p < g.n) →
      depsLoop g root recur ds parents st ≠ .error .fuelOut := by
  intro ds
  induction ds with
  | nil =>
    intro st hnd hb h
    rw [depsLoop] at h
    exact absurd h (by simp)
  | cons d0 rest ih =>
    intro st hnd hb h
    rw [depsLoop] at h
    split at h
    · rename_i e2 hr2
      injection h with h
      subst h
      exact prvLoop_noFuel g root recur parents HB hrecF d0 _ _ hnd hb hr2
    · exact ih _ hnd hb h

theorem resolveT_noFuel (g : DepGraph) (root : Nat)
    (HB : ∀ r x, x ∈ g.resolveRef r → x < g.n) :
    ∀ (fuel t : Nat) (parents : List Nat) (st : RSt),
      parents.Nodup → (∀ p ∈ parents, p < g.n) →
      fuel ≥ g.n + 1 - parents.length →
      resolveT g root fuel t parents st ≠ .error .fuelOut := by
  intro fuel
  induction fuel with
  | zero =>
    intro t parents st hnd hb hge h
    have hlen : parents.length ≤ g.n := nodup_bounded_length _ _ hnd hb
    omega
  | succ fuel ih =>
    intro t parents st hnd hb hge h
    rw [resolveT] at h
    split at h
    · rename_i e2 hdl
      injection h with h
      subst h
      refine depsLoop_noFuel g root _ parents HB ?_ _ _ hnd hb hdl
      intro d ps s hnd2 hb2 hlen2
      refine ih d ps s hnd2 hb2 ?_
      omega
    · rename_i st3 hdl
      split at h
      · exact absurd h (by simp)
      · split at h
        · rename_i k2 hlast
          split at h
          · exact absurd h (by simp)
          · injection h with h
            exact absurd h (by simp)
        · injection h with h
          exact absurd h (by simp)

/-- C10: every normally-returning invocation of `resolve` restores the
provider stack it entered with — a providing target pushes exactly one key
and pops that same key, a non-providing target leaves the stack untouched —
and the `assert providers[-1] == target.provides.key` never fails on any
invocation (no result of `resolve` is the assertion failure). -/
theorem C10_stack_discipline :
    ∀ (g : DepGraph) (root fuel t : Nat) (parents : List Nat) (st st2 : RSt),
      resolveT g root fuel t parents st = .ok st2 →
      st2.1 = st.1 ∧
      ∀ (fuel2 t2 : Nat) (parents2 : List Nat) (st3 : RSt),
        resolveT g root fuel2 t2 parents2 st3 ≠ .error .assertFail := by
  intro g root fuel t parents st st2 h
  refine ⟨resolveT_ok_stack g root fuel t parents st st2 h, ?_⟩
  intro fuel2 t2 parents2 st3 hcontra
  exact (resolveT_err_shape g root fuel2 t2 parents2 st3 _ hcontra).1 rfl

/-- Witness for C10 on a concrete run over `gC2`. -/
theorem C10_stack_discipline_witness :
    ((["r"], [("r", [2]), ("s", [2])]) : RSt).1 = ((["r"], []) : RSt).1 ∧
    ∀ (fuel2 t2 : Nat) (parents2 : List Nat) (st3 : RSt),
      resolveT gC2 0 fuel2 t2 parents2 st3 ≠ .error .assertFail :=
  C10_stack_discipline gC2 0 9 1 [1] (["r"], []) (["r"], [("r", [2]), ("s", [2])])
    (by decide)

/-- C6: on a normal return of `resolve(t)`, every node reachable from `t` in
one or more combined-dependency steps is recorded in the final depmap under
every provider key on the stack at entry to `t`, and also under the key `t`
itself pushes when it provides — so each resolved dependency is attributed to
every stacked provider, not only the top, and a provider nested inside
another provider's dependency subtree gets its own complete transitive
closure under its key. -/
theorem C6_stack_recording :
    ∀ (g : DepGraph) (root fuel t : Nat) (parents : List Nat) (st st2 : RSt),
      resolveT g root fuel t parents st = .ok st2 →
      ∀ prv ∈ st.1 ++ (providerKey g t).toList,
      ∀ x, ReachPlus g t x → x ∈ depMapGet st2.2 prv :=
  fun g root fuel t parents st st2 h =>
    resolveT_complete g root fuel t parents st st2 h

/-- Witness for C6: resolving the nested provider `S = 1` of `gC2` (with the
root's key `"r"` already on the stack) records `S`'s reachable node `X = 2`
under `S`'s own key `"s"`. -/
theorem C6_stack_recording_witness :
    (2 : Nat) ∈ depMapGet ([("r", [2]), ("s", [2])] : DepMap) "s" :=
  C6_stack_recording gC2 0 9 1 [1] (["r"], []) (["r"], [("r", [2]), ("s", [2])])
    (by decide) "s" (by decide) 2 (Relation.TransGen.single (by decide))

/-- C2 (counterexample): in `gC2` the requirement node `X = 2`
(`isinstance(X, PythonRequirement)`) is reachable from the root `R = 0`
through the sibling provider `S = 1`, yet `minified_dependencies(R)` returns
`[S]` only: `X` lies in `S`'s recorded closure and the elision pass discards
it like any other node, refuting "never elided". -/
theorem C2_counterexample :
    gC2.isReq 2 = true ∧ ReachPlus gC2 0 2 ∧
    minified_dependencies gC2 10 0 = .ok [1] ∧ (2 : Nat) ∉ ([1] : List Nat) :=
  ⟨by decide,
   Relation.TransGen.tail
     (Relation.TransGen.single (show StepC gC2 0 1 by decide))
     (show StepC gC2 1 2 by decide),
   by decide, by decide⟩

/-- C2 (amended): a Requirement Node reachable from the root is contained in
the set returned by `minified_dependencies` provided it does not appear in
the closure set of any other provider remaining in the Dependency Map;
requirement nodes get no special treatment from the elision pass. -/
theorem C2_requirement_amended :
    ∀ (g : DepGraph) (fuel root x : Nat) (ps : List String) (dm : DepMap)
      (art : PyArtifact),
      resolveT g root fuel root [] ([], []) = .ok (ps, dm) →
      g.provides root = some art →
      g.isPy root = true →
      g.isReq x = true →
      ReachPlus g root x →
      (∀ e ∈ depMapErase dm art.key, x ∉ e.2) →
      ∃ res, minified_dependencies g fuel root = .ok res ∧ x ∈ res := by
  intro g fuel root x ps dm art hres hprov hpy hreq hreach hsib
  have hkey : providerKey g root = some art.key := by
    rw [providerKey, hprov]
    simp [hpy]
  have hx : x ∈ depMapGet dm art.key := by
    refine resolveT_complete g root fuel root [] ([], []) (ps, dm) hres art.key ?_ x hreach
    rw [hkey]
    simp
  refine ⟨(depMapGet dm art.key).filter
    (fun t => !((walkNodes g fuel [root] []).contains t &&
      depMapAny (depMapErase dm art.key) t)), ?_, ?_⟩
  · rw [minified_dependencies, hres, hprov]
  · rw [List.mem_filter]
    refine ⟨hx, ?_⟩
    have hany : depMapAny (depMapErase dm art.key) x = false := by
      rw [depMapAny, List.any_eq_false]
      intro e he
      simpa using hsib e he
    rw [hany]
    simp

/-- Witness for the amended C2: in `gReqOnly` the requirement `X = 1` is
reachable from the root and no sibling provider closure remains, so it
survives minification. -/
theorem C2_requirement_amended_witness :
    ∃ res, minified_dependencies gReqOnly 10 0 = .ok res ∧ (1 : Nat) ∈ res :=
  C2_requirement_amended gReqOnly 10 0 1 [] [("r", [1])] ⟨"r", []⟩
    (by decide) (by decide) (by decide) (by decide)
    (Relation.TransGen.single (by decide)) (by decide)

/-- C5: in `gC5` — root `R = 0` provides artifact `"r"` and depends on the
provider-less source target `X = 2` and on the sibling provider `S = 1`
(artifact `"s"`), whose closure also contains `X` — `Minify(R)` returns
`[S]`, excluding `X`, while `Minify(S)` returns `[X]`, including it. -/
theorem C5_elision :
    gC5.isPy 2 = true ∧ gC5.provides 2 = none ∧ StepC gC5 1 2 ∧
    minified_dependencies gC5 10 0 = .ok [1] ∧ (2 : Nat) ∉ ([1] : List Nat) ∧
    minified_dependencies gC5 10 1 = .ok [2] ∧ (2 : Nat) ∈ ([2] : List Nat) := by
  decide

/-- C4: for every graph with a cycle `a → b → c → a` reachable from a
providing root (node identifiers bounded by `g.n`, fuel at least `g.n + 1`),
`minified_dependencies` fails with the cycle error
(`TargetDefinitionException`), whose payload names the root and a node lying
on a cycle; and on the concrete acyclic diamond sharing the common leaf `C`
(`A → C`, `B → C`, no edge between `A` and `B`) no error is raised. -/
theorem C4_cycle_and_diamond :
    (∀ (g : DepGraph) (root a b c fuel : Nat),
      (∀ r x, x ∈ g.resolveRef r → x < g.n) →
      fuel ≥ g.n + 1 →
      (providerKey g root).isSome = true →
      StepC g a b → StepC g b c → StepC g c a →
      ReachStar g root a →
      ∃ d, minified_dependencies g fuel root = .error (.cycle root d) ∧
        ReachPlus g d d) ∧
    minified_dependencies gDiamond 10 0 = .ok [1, 3, 2] := by
  constructor
  · intro g root a b c fuel HB hfuel hprov hab hbc hca hroot
    have hcyc : ∃ x, ReachPlus g root x ∧ ReachPlus g x x := by
      rcases (Relation.reflTransGen_iff_eq_or_transGen.1 hroot) with heq | ht
      · refine ⟨b, Relation.TransGen.single (heq ▸ hab), ?_⟩
        exact Relation.TransGen.tail
          (Relation.TransGen.tail (Relation.TransGen.single hbc) hca) hab
      · refine ⟨a, ht, ?_⟩
        exact Relation.TransGen.tail
          (Relation.TransGen.tail (Relation.TransGen.single hab) hbc) hca
    cases hres : resolveT g root fuel root [] ([], []) with
    | ok st =>
      exfalso
      obtain ⟨x, hrx, hxx⟩ := hcyc
      refine (resolveT_acyc g root fuel root [] ([], []) st hres ?_ x hrx).2 hxx
      obtain ⟨k, hk⟩ := Option.isSome_iff_exists.1 hprov
      rw [hk]
      simp
    | error e =>
      cases e with
      | fuelOut =>
        exfalso
        refine resolveT_noFuel g root HB fuel root [] ([], []) (by simp) (by simp)
          ?_ hres
        simpa using hfuel
      | assertFail =>
        exact absurd rfl (resolveT_err_shape g root fuel root [] ([], []) _ hres).1
      | attrErr =>
        exact absurd rfl (resolveT_err_shape g root fuel root [] ([], []) _ hres).2
      | cycle r d =>
        have he := resolveT_cycleErr g root fuel root [] ([], []) r d
          (fun p hp => absurd hp (List.not_mem_nil _)) hres
        obtain ⟨hr, hdd⟩ := he
        subst hr
        refine ⟨d, ?_, hdd⟩
        rw [minified_dependencies, hres]
  · decide

/-- Witness for C4 on the concrete cycle `0 → 1 → 2 → 0` of `gCycle`, rooted
at `0` with fuel `4 = gCycle.n + 1`. -/
theorem C4_cycle_and_diamond_witness :
    ∃ d, minified_dependencies gCycle 4 0 = .error (.cycle 0 d) ∧
      ReachPlus gCycle d d :=
  C4_cycle_and_diamond.1 gCycle 0 0 1 2 4
    (by
      intro r x hx
      match r with
      | 0 =>
        simp only [gCycle] at hx
        rw [List.mem_singleton] at hx
        subst hx
        decide
      | 1 =>
        simp only [gCycle] at hx
        rw [List.mem_singleton] at hx
        subst hx
        decide
      | 2 =>
        simp only [gCycle] at hx
        rw [List.mem_singleton] at hx
        subst hx
        decide
      | r + 3 =>
        simp only [gCycle] at hx
        exact absurd hx (List.not_mem_nil _))
    (by decide) (by decide) (by decide) (by decide) (by decide)
    Relation.ReflTransGen.refl
